import Mathlib

/-!
# Verification of the NEST event-delivery manager (5g prototype)

A shallow embedding of `nestkernel/event_delivery_manager.cpp`: the ring-buffer
modulus bookkeeping (`init_moduli` / `update_moduli`), the round-based spike-data
exchange (`gather_spike_data`, `prepare_spike_data_buffers_`,
`collocate_spike_data_buffers_`, `deliver_events_5g_`) and the target-data
distribution (`distribute_target_data_buffers_`), together with theorems about
them.

Machine integers of the source are modelled as `Nat`; the external collaborators
(the checkpointed spike-register iterator, the MPI all-to-all transport, the wire
record types whose headers are not among the sources) are modelled from their
contracts in the specification, each such definition marked `Modelled from the
spec`.
-/

namespace Nest5g

/-! ## Modulus engine (`init_moduli` / `update_moduli`) -/

/-- The two delay-indexed lookup tables `moduli_` and `slice_moduli_` of
`EventDeliveryManager`. -/
structure ModuliState where
  moduli : List Nat
  slice_moduli : List Nat
  deriving DecidableEq, Repr

/-- The bin count `nbuff = ceil((min_delay + max_delay) / min_delay)` of the
slice-based ring buffer.  The source computes
`std::ceil(double(min_delay + max_delay) / min_delay)`, which is exact for the
integer delays in play; we use the integer ceiling division. -/
def nbuff (min_delay max_delay : Nat) : Nat :=
  (min_delay + max_delay + min_delay - 1) / min_delay

/-- `EventDeliveryManager::init_moduli` with the clock at step count `T`:
`moduli_[d] = (T + d) % (min_delay + max_delay)` and
`slice_moduli_[d] = ((T + d) / min_delay) % nbuff` for `d < min_delay + max_delay`. -/
def init_moduli (min_delay max_delay T : Nat) : ModuliState where
  moduli := (List.range (min_delay + max_delay)).map
    (fun d => (T + d) % (min_delay + max_delay))
  slice_moduli := (List.range (min_delay + max_delay)).map
    (fun d => ((T + d) / min_delay) % nbuff min_delay max_delay)

/-- `EventDeliveryManager::update_moduli` with the clock already advanced to step
count `T`: rotates `moduli_` left by `min_delay` positions (`std::rotate`) and
recomputes `slice_moduli_` from scratch. -/
def update_moduli (min_delay max_delay T : Nat) (st : ModuliState) : ModuliState where
  moduli := st.moduli.rotate min_delay
  slice_moduli := (List.range (min_delay + max_delay)).map
    (fun d => ((T + d) / min_delay) % nbuff min_delay max_delay)

/-- The table state after `k` slice advances starting from `init_moduli` at step
count `T0`, the clock advancing by exactly `min_delay` steps per slice (one call
to `update_moduli` per slice, as in the simulation loop). -/
def advance_slices (min_delay max_delay T0 : Nat) : Nat → ModuliState
  | 0 => init_moduli min_delay max_delay T0
  | k + 1 => update_moduli min_delay max_delay (T0 + (k + 1) * min_delay)
      (advance_slices min_delay max_delay T0 k)

/-! ## Spike-data exchange: data model

`SpikeData` is declared in a header that is not among the sources; its payload
fields are the ones `deliver_events_5g_` reads (`tid`, `syn_index`, `lcid`,
`lag`). -/

/-- The payload of one spike wire record, as read by `deliver_events_5g_`. -/
structure SpikeData where
  tid : Nat
  syn_index : Nat
  lcid : Nat
  lag : Nat
  deriving DecidableEq, Repr

/-- Modelled from the spec: `spike_data.h` (with `set_empty` / `set_complete`) is
not among the sources, so a buffer slot is modelled as either a real payload or
one of the two sentinel states "empty" / "complete"; per the spec the sentinels
are distinguishable from every real record (in particular the thread-id test of
`deliver_events_5g_` never matches a sentinel). -/
inductive SpikeSlot where
  | data (sd : SpikeData)
  | empty
  | complete
  deriving DecidableEq, Repr

/-- The payload of a slot, `none` for the sentinels. -/
def SpikeSlot.payload : SpikeSlot → Option SpikeData
  | .data sd => some sd
  | .empty => none
  | .complete => none

/-- One pending outgoing record of the spike register: destination rank plus
payload. -/
structure SpikeRecord where
  target : Nat
  sd : SpikeData
  deriving DecidableEq, Repr

/-- Modelled from the spec: the checkpointed register iterator
(`spike_register_table`, not among the sources) keeps, per thread, a current
iteration position and a saved entry point into the thread's ordered stream of
pending records. -/
structure RegisterPos where
  cur : Nat
  saved : Nat
  deriving DecidableEq, Repr

/-- Modelled from the spec: `get_next_spike_data` yields the record at the
current position of the thread's (rank-range restricted) stream and advances the
position; it fails when the stream is exhausted. -/
def get_next_spike_data (stream : List SpikeRecord) (p : RegisterPos) :
    Option (SpikeRecord × RegisterPos) :=
  match stream[p.cur]? with
  | some r => some (r, { p with cur := p.cur + 1 })
  | none => none

/-- Modelled from the spec: `reject_last_spike_data` undoes the most recent
advance of the iteration position. -/
def reject_last_spike_data (p : RegisterPos) : RegisterPos :=
  { p with cur := p.cur - 1 }

/-- Modelled from the spec: `save_entry_point` commits the current position. -/
def save_entry_point (p : RegisterPos) : RegisterPos :=
  { p with saved := p.cur }

/-- Modelled from the spec: `restore_entry_point` returns to the committed
position. -/
def restore_entry_point (p : RegisterPos) : RegisterPos :=
  { p with cur := p.saved }

/-- Modelled from the spec: `reset_entry_point` starts a fresh slice at the
beginning of the stream. -/
def reset_entry_point : RegisterPos := { cur := 0, saved := 0 }

/-! ## Spike-data exchange: buffer collocation -/

/-- The arguments of `collocate_spike_data_buffers_` fixed per thread: the
per-rank segment capacity `num_spike_data_per_rank` and the thread's assigned
rank range `[rank_start, rank_end)` (`num_assigned_ranks_per_thread =
rank_end - rank_start`). -/
structure CollocArgs where
  cap : Nat
  rank_start : Nat
  rank_end : Nat
  deriving DecidableEq, Repr

/-- The loop body of `collocate_spike_data_buffers_`: repeatedly pull the next
pending record; if its destination segment has room write it at
`target_rank * cap + offset[target_rank]` and bump the offset, otherwise reject
the record and save the entry point; return when all assigned segments are full
(`sum = cap * num_assigned`) or the register is exhausted, reporting whether the
buffer was left untouched.  The C++ `while (true)` loop is given explicit fuel;
`none` means the iteration bound was exceeded. -/
def collocate_loop (a : CollocArgs) (stream : List SpikeRecord) :
    Nat → RegisterPos → List SpikeSlot → List Nat → Nat → Bool →
    Option (RegisterPos × List SpikeSlot × Bool)
  | 0, _, _, _, _, _ => none
  | fuel + 1, p, buf, offsets, sum, untouched =>
    match get_next_spike_data stream p with
    | none => some (p, buf, untouched)
    | some (r, p1) =>
      let i := r.target - a.rank_start
      if offsets.getD i 0 < a.cap then
        let buf2 := buf.set (r.target * a.cap + offsets.getD i 0) (SpikeSlot.data r.sd)
        let offsets2 := offsets.set i (offsets.getD i 0 + 1)
        if sum + 1 = a.cap * (a.rank_end - a.rank_start) then some (p1, buf2, false)
        else collocate_loop a stream fuel p1 buf2 offsets2 (sum + 1) false
      else
        let p2 := save_entry_point (reject_last_spike_data p1)
        if sum = a.cap * (a.rank_end - a.rank_start) then some (p2, buf, untouched)
        else collocate_loop a stream fuel p2 buf offsets sum untouched

/-- `EventDeliveryManager::collocate_spike_data_buffers_` for one thread: run the
fill loop with fresh per-rank offsets, unless the thread has no assigned ranks. -/
def collocate_spike_data_buffers (a : CollocArgs) (stream : List SpikeRecord)
    (fuel : Nat) (p : RegisterPos) (buf : List SpikeSlot) :
    Option (RegisterPos × List SpikeSlot × Bool) :=
  if a.rank_start ≠ a.rank_end then
    collocate_loop a stream fuel p buf
      (List.replicate (a.rank_end - a.rank_start) 0) 0 true
  else some (p, buf, true)

/-- `EventDeliveryManager::prepare_spike_data_buffers_`: stamp every slot of the
send buffer "empty" when `me_completed` is false and "complete" when it is true. -/
def prepare_spike_data_buffers (me_completed : Bool) (buf : List SpikeSlot) :
    List SpikeSlot :=
  if me_completed then buf.map (fun _ => SpikeSlot.complete)
  else buf.map (fun _ => SpikeSlot.empty)

/-! ## Spike-data exchange: delivery -/

/-- The `prepared_timestamps` table of `deliver_events_5g_`: for every lag below
`min_delay` the stamp is the clock advanced by `lag + 1` steps (times are step
counts). -/
def prepared_timestamps (min_delay clock : Nat) : List Nat :=
  (List.range min_delay).map (fun lag => clock + (lag + 1))

/-- A delivered event as handed to `send_5g`: the delivering thread, the stamp
set on the `SpikeEvent`, and the originating payload. -/
abbrev Delivery := Nat × Nat × SpikeData

/-- A slot whose real payload (if any) has a lag below `m`: the guard under
which the `prepared_timestamps[it->lag]` access of the source is in bounds. -/
def lag_ok (m : Nat) : SpikeSlot → Bool
  | SpikeSlot.data sd => decide (sd.lag < m)
  | _ => true

/-- `EventDeliveryManager::deliver_events_5g_` for one thread: deliver only at
the beginning of a time slice (`from_step = 0`); scan the whole receive buffer
in order and forward every record whose `tid` is this thread's, stamped from the
prepared timestamp table at the record's `lag`; report whether no spike was
delivered. -/
def deliver_events_5g (from_step min_delay clock : Nat) (tid : Nat)
    (recv : List SpikeSlot) : List Delivery × Bool :=
  if 0 < from_step then ([], true)
  else
    let ts := prepared_timestamps min_delay clock
    let delivered := recv.filterMap (fun slot =>
      match slot with
      | SpikeSlot.data sd => if sd.tid = tid then some (tid, ts.getD sd.lag 0, sd) else none
      | _ => none)
    (delivered, delivered.isEmpty)

/-! ## Spike-data exchange: the round loop of `gather_spike_data`

One process ("rank") runs `num_threads` worker threads; each thread owns a
rank-range-restricted stream of pending records together with its register
position.  The threads of one round are sequentialised (they write disjoint
buffer regions, see `collocate_writes_within_segments`). -/

/-- Per-thread register state of one rank. -/
structure ThreadReg where
  stream : List SpikeRecord
  pos : RegisterPos
  rank_start : Nat
  rank_end : Nat
  deriving DecidableEq, Repr

/-- Global configuration of one `gather_spike_data` call. -/
structure ProtoCfg where
  num_ranks : Nat
  num_threads : Nat
  buf_size : Nat
  min_delay : Nat
  clock : Nat
  from_step : Nat
  deriving DecidableEq, Repr

/-- `num_spike_data_per_rank` as computed at the top of `gather_spike_data` and
in `collocate_spike_data_buffers_`:
`ceil( send_buffer_spike_data_.size() / num_processes )` — the division inside
`ceil` is C++ integer division, so the `ceil` is a no-op and this is the floor
`buf_size / num_ranks`. -/
def num_spike_data_per_rank (buf_size num_ranks : Nat) : Nat :=
  buf_size / num_ranks

/-- `restore_entry_point` on every thread (top of each round). -/
def restore_all (regs : List ThreadReg) : List ThreadReg :=
  regs.map (fun r => { r with pos := restore_entry_point r.pos })

/-- `save_entry_point` on every thread (before the exchange). -/
def save_all (regs : List ThreadReg) : List ThreadReg :=
  regs.map (fun r => { r with pos := save_entry_point r.pos })

/-- The send buffer entering collocation: `gather_spike_data` resets the shared
`me_completed` flag to `true` immediately before the first
`prepare_spike_data_buffers_` call of every round, so every slot is stamped
"complete" regardless of the register's state. -/
def send_buffer_before_collocation (buf_size : Nat) : List SpikeSlot :=
  prepare_spike_data_buffers true (List.replicate buf_size SpikeSlot.empty)

/-- Run `collocate_spike_data_buffers_` for each thread in turn on the shared
send buffer, and combine the per-thread `me_completed` contributions by logical
and (the `omp critical` reduction). -/
def collocate_threads (cap fuel : Nat) :
    List ThreadReg → List SpikeSlot → Option (List ThreadReg × List SpikeSlot × Bool)
  | [], buf => some ([], buf, true)
  | reg :: rest, buf =>
    match collocate_spike_data_buffers ⟨cap, reg.rank_start, reg.rank_end⟩
        reg.stream fuel reg.pos buf with
    | none => none
    | some (p, buf2, unt) =>
      match collocate_threads cap fuel rest buf2 with
      | none => none
      | some (rest2, buf3, unt2) => some ({ reg with pos := p } :: rest2, buf3, unt && unt2)

/-- The send half of one round of `gather_spike_data` on one rank: restore the
entry points, stamp the buffer (with the freshly reset `me_completed = true`),
collocate all threads, restamp "complete" if the round found `me_completed`,
save the entry points.  Returns the updated registers, the send buffer handed to
the all-to-all, and `me_completed`. -/
def rank_send_round (cfg : ProtoCfg) (fuel : Nat) (regs : List ThreadReg) :
    Option (List ThreadReg × List SpikeSlot × Bool) :=
  match collocate_threads (num_spike_data_per_rank cfg.buf_size cfg.num_ranks) fuel
      (restore_all regs) (send_buffer_before_collocation cfg.buf_size) with
  | none => none
  | some (regs2, buf2, me) =>
    some (save_all regs2, if me then prepare_spike_data_buffers me buf2 else buf2, me)

/-- The segment of a send buffer holding the records destined for rank `r`:
slots `[r * cap, (r + 1) * cap)`. -/
def segment_for (cap r : Nat) (buf : List SpikeSlot) : List SpikeSlot :=
  (buf.drop (r * cap)).take cap

/-- Modelled from the spec: the blocking `communicate_Alltoall` with
`send_recv_count` covering `num_spike_data_per_rank` records per destination.
Rank `r` receives the concatenation of every rank's segment `r`; the trailing
`buf_size - num_ranks * cap` slots of the receive buffer are never transmitted
into and stay sentinel. -/
def all_to_all (cfg : ProtoCfg) (sends : List (List SpikeSlot)) (r : Nat) :
    List SpikeSlot :=
  (sends.map (fun sb =>
      segment_for (num_spike_data_per_rank cfg.buf_size cfg.num_ranks) r sb)).flatten
    ++ List.replicate
        (cfg.buf_size - cfg.num_ranks * num_spike_data_per_rank cfg.buf_size cfg.num_ranks)
        SpikeSlot.complete

/-- The multiset of real payloads held in a buffer (sentinels ignored). -/
def realsOf (l : List SpikeSlot) : Multiset SpikeData :=
  ↑(l.filterMap SpikeSlot.payload)

/-- The delivery half of one round on one rank: every thread scans the whole
receive buffer with `deliver_events_5g_`; the per-thread "no spikes delivered"
results are and-combined into `others_completed` (the `omp critical` reduction). -/
def deliver_round (cfg : ProtoCfg) (recv : List SpikeSlot) : List Delivery × Bool :=
  let results := (List.range cfg.num_threads).map
    (fun t => deliver_events_5g cfg.from_step cfg.min_delay cfg.clock t recv)
  ((results.map Prod.fst).flatten, results.all (fun q => q.2))

/-- The full per-rank state: registers plus the log of events handed to the
routing layer (`send_5g`) so far. -/
structure RankState where
  regs : List ThreadReg
  delivered : List Delivery
  deriving DecidableEq, Repr

/-- Run the send half of the round on every rank. -/
def send_rounds (cfg : ProtoCfg) (fuel : Nat) :
    List RankState → Option (List (List ThreadReg × List SpikeSlot × Bool))
  | [] => some []
  | rs :: rest =>
    match rank_send_round cfg fuel rs.regs, send_rounds cfg fuel rest with
    | some x, some xs => some (x :: xs)
    | _, _ => none

/-- Finish the round from rank index `r0` on: exchange, deliver, compute each
rank's exit condition `me_completed && others_completed`. -/
def finish_round (cfg : ProtoCfg) (bufs : List (List SpikeSlot)) :
    List RankState → List (List ThreadReg × List SpikeSlot × Bool) → Nat →
    List RankState × List Bool
  | [], _, _ => ([], [])
  | _ :: _, [], _ => ([], [])
  | rs :: restR, sd :: restS, r0 =>
    let dl := deliver_round cfg (all_to_all cfg bufs r0)
    let rest := finish_round cfg bufs restR restS (r0 + 1)
    ({ regs := sd.1, delivered := rs.delivered ++ dl.1 } :: rest.1,
      (sd.2.2 && dl.2) :: rest.2)

/-- One synchronous round of the `while (true)` loop of `gather_spike_data`,
executed by all ranks together (the `communicate_Alltoall` is collective). -/
def global_round (cfg : ProtoCfg) (fuel : Nat) (ranks : List RankState) :
    Option (List RankState × List Bool) :=
  match send_rounds cfg fuel ranks with
  | none => none
  | some sends => some (finish_round cfg (sends.map (fun x => x.2.1)) ranks sends 0)

/-- Global protocol state: the per-rank states plus each rank's "has broken out
of the round loop" flag. -/
structure SysState where
  ranks : List RankState
  exited : List Bool
  deriving DecidableEq, Repr

/-- The round loop, globally: a rank that has broken out of its loop no longer
takes part in the collective exchange, so a round in which some but not all
ranks are still looping blocks forever in `communicate_Alltoall` (`none`).  The
run terminates when every rank has exited. -/
def run_protocol (cfg : ProtoCfg) (fuel : Nat) : Nat → SysState → Option SysState
  | 0, sys => if sys.exited.all id then some sys else none
  | n + 1, sys =>
    if sys.exited.all id then some sys
    else if sys.exited.any id then none
    else
      match global_round cfg fuel sys.ranks with
      | none => none
      | some (ranks2, exits) => run_protocol cfg fuel n { ranks := ranks2, exited := exits }

/-- The records consumed between an earlier and a later register state of the
same threads: for each thread, the slice of its stream between the earlier and
the later committed entry point. -/
def round_consumed (regs regsOut : List ThreadReg) : List SpikeRecord :=
  (regs.zip regsOut).flatMap
    (fun rr => (rr.1.stream.drop rr.1.pos.saved).take (rr.2.pos.saved - rr.1.pos.saved))

/-- As `round_consumed`, but between the current (uncommitted) iteration
positions. -/
def consumed_cur (regs regsOut : List ThreadReg) : List SpikeRecord :=
  (regs.zip regsOut).flatMap
    (fun rr => (rr.1.stream.drop rr.1.pos.cur).take (rr.2.pos.cur - rr.1.pos.cur))

/-- The payload multiset of all records destined for rank `r` among the streams
of all ranks. -/
def sent_to (r : Nat) (ranks : List RankState) : Multiset SpikeData :=
  ↑(ranks.flatMap (fun rs => rs.regs.flatMap
      (fun reg => (reg.stream.filter (fun rec => rec.target == r)).map SpikeRecord.sd)))

/-- The payload multiset of all records destined for rank `r` that have been
consumed (committed past) so far, among the streams of all ranks. -/
def consumed_to (r : Nat) (ranks : List RankState) : Multiset SpikeData :=
  ↑(ranks.flatMap (fun rs => rs.regs.flatMap
      (fun reg => ((reg.stream.take reg.pos.saved).filter
          (fun rec => rec.target == r)).map SpikeRecord.sd)))

/-- The payload multiset of all events a rank has handed to the routing layer. -/
def delivered_at (rs : RankState) : Multiset SpikeData :=
  ↑(rs.delivered.map (fun e => e.2.2))

/-- Well-formedness of one thread's register against the configuration: the
assigned rank range lies within the ranks, every pending record is destined for
a rank of the assigned range, carries a thread id below `num_threads` and a lag
below `min_delay`, and the iteration position is in bounds with `cur = saved`
(as holds at every round boundary). -/
def WFThread (cfg : ProtoCfg) (reg : ThreadReg) : Prop :=
  reg.rank_start ≤ reg.rank_end ∧ reg.rank_end ≤ cfg.num_ranks
    ∧ (∀ rec ∈ reg.stream,
        reg.rank_start ≤ rec.target ∧ rec.target < reg.rank_end
          ∧ rec.sd.tid < cfg.num_threads ∧ rec.sd.lag < cfg.min_delay)
    ∧ reg.pos.cur = reg.pos.saved ∧ reg.pos.saved ≤ reg.stream.length

/-- Two threads are assigned disjoint rank ranges. -/
def RangesDisjoint (x y : ThreadReg) : Prop :=
  x.rank_end ≤ y.rank_start ∨ y.rank_end ≤ x.rank_start

/-- Well-formedness of one rank's state. -/
def WFRank (cfg : ProtoCfg) (rs : RankState) : Prop :=
  rs.regs.length = cfg.num_threads
    ∧ (∀ reg ∈ rs.regs, WFThread cfg reg)
    ∧ rs.regs.Pairwise RangesDisjoint

/-- Well-formedness of the global state: one rank state and one exit flag per
rank, each rank well-formed. -/
def WFSys (cfg : ProtoCfg) (sys : SysState) : Prop :=
  sys.ranks.length = cfg.num_ranks ∧ sys.exited.length = cfg.num_ranks
    ∧ ∀ rs ∈ sys.ranks, WFRank cfg rs

/-- The initial state of a `gather_spike_data` call: every register at the reset
entry point, nothing delivered, every rank inside the round loop. -/
def InitialSys (sys : SysState) : Prop :=
  (∀ rs ∈ sys.ranks, (∀ reg ∈ rs.regs, reg.pos = reset_entry_point)
      ∧ rs.delivered = [])
    ∧ ∀ e ∈ sys.exited, e = false

instance (x y : ThreadReg) : Decidable (RangesDisjoint x y) := by
  unfold RangesDisjoint
  exact inferInstance

instance (cfg : ProtoCfg) (reg : ThreadReg) : Decidable (WFThread cfg reg) := by
  unfold WFThread
  exact inferInstance

instance (cfg : ProtoCfg) (rs : RankState) : Decidable (WFRank cfg rs) := by
  unfold WFRank
  exact inferInstance

instance (cfg : ProtoCfg) (sys : SysState) : Decidable (WFSys cfg sys) := by
  unfold WFSys
  exact inferInstance

instance (sys : SysState) : Decidable (InitialSys sys) := by
  unfold InitialSys
  exact inferInstance

/-- Every event a rank has handed to the routing layer is well-formed: its
thread component is the payload's `tid` and its stamp is
`clock + (lag + 1)` (the `prepared_timestamps` entry for the payload's lag). -/
def EntryWF (cfg : ProtoCfg) (rs : RankState) : Prop :=
  ∀ e ∈ rs.delivered, e.1 = e.2.2.tid ∧ e.2.1 = cfg.clock + (e.2.2.lag + 1)

/-- Every thread of the rank has committed past the end of its stream: the
rank's spike register holds no pending record. -/
def Exhausted (rs : RankState) : Prop :=
  ∀ reg ∈ rs.regs, reg.stream.length ≤ reg.pos.saved

/-- The invariant of the round loop of `gather_spike_data`, relative to the
streams `ranks0` the call started from: the state is well-formed, the streams
are unchanged, each rank's log of routed events is exactly the multiset of
records every rank has committed past that are destined for it, every logged
event is well-formed, and a rank that has broken out of the loop has consumed
its whole register. -/
def ProtoInv (cfg : ProtoCfg) (ranks0 : List RankState) (sys : SysState) : Prop :=
  WFSys cfg sys
    ∧ (∀ r : Nat, sent_to r sys.ranks = sent_to r ranks0)
    ∧ (∀ r : Nat, r < cfg.num_ranks →
        delivered_at (sys.ranks.getD r ⟨[], []⟩) = consumed_to r sys.ranks)
    ∧ (∀ rs ∈ sys.ranks, EntryWF cfg rs)
    ∧ (∀ k : Nat, k < cfg.num_ranks → sys.exited.getD k false = true →
        Exhausted (sys.ranks.getD k ⟨[], []⟩))

/-! ## Target-data exchange: distribution -/

/-- Modelled from the spec: the sentinel state of a `TargetData` wire record
(header not among the sources); `is_empty` and `is_complete` are both false
exactly at a real payload. -/
inductive TDMark where
  | payload
  | empty
  | complete
  deriving DecidableEq, Repr

/-- Modelled from the spec: a `TargetData` wire record — a target identifier
`gid` plus the sentinel state. -/
structure TargetData where
  gid : Nat
  mark : TDMark
  deriving DecidableEq, Repr

/-- `TargetData::is_empty`. -/
def TargetData.is_empty (td : TargetData) : Bool :=
  match td.mark with
  | TDMark.empty => true
  | _ => false

/-- `TargetData::is_complete`. -/
def TargetData.is_complete (td : TargetData) : Bool :=
  match td.mark with
  | TDMark.complete => true
  | _ => false

/-- `EventDeliveryManager::distribute_target_data_buffers_`: scan the receive
buffer and forward a record to `add_target` iff it is neither empty nor complete
and its `gid` resolves to a virtual process local to this rank (`is_vp_local` is
the external `vp_manager` lookup, passed as a predicate).  Returns the list of
forwarded records in scan order. -/
def distribute_target_data_buffers (is_vp_local : Nat → Bool)
    (recv : List TargetData) : List TargetData :=
  recv.filter (fun td => !td.is_empty && !td.is_complete && is_vp_local td.gid)

/-! ## Theorems: modulus engine -/

lemma rotate_mod_table (W T m : Nat) :
    ((List.range W).map (fun d => (T + d) % W)).rotate m
      = (List.range W).map (fun d => (T + m + d) % W) := by
  apply List.ext_getElem
  · simp
  · intro n h1 h2
    rw [List.getElem_rotate]
    simp only [List.getElem_map, List.getElem_range, List.length_map, List.length_range]
    have h3 : (T + (n + m) % W) % W = (T + (n + m)) % W :=
      Nat.ModEq.add_left T (Nat.mod_modEq (n + m) W)
    rw [h3]
    congr 1
    omega

lemma update_moduli_init_step (min_delay max_delay T : Nat) :
    update_moduli min_delay max_delay (T + min_delay) (init_moduli min_delay max_delay T)
      = init_moduli min_delay max_delay (T + min_delay) := by
  unfold update_moduli init_moduli
  simp only [ModuliState.mk.injEq]
  exact ⟨rotate_mod_table (min_delay + max_delay) T min_delay, trivial⟩

/-- **C2.** For every delay window with `min_delay ≥ 1` and `max_delay ≥ 1` and any
number `k` of slice advances in which the clock advances by exactly `min_delay`
steps per slice, the tables produced by the rotate-and-recompute `update_moduli`
are exactly the tables `init_moduli` would produce fresh at the updated step
count (hence element-wise equal for every offset `d < min_delay + max_delay`). -/
theorem update_moduli_eq_init_moduli (min_delay max_delay T0 k : Nat)
    (hmin : 1 ≤ min_delay) (hmax : 1 ≤ max_delay) :
    advance_slices min_delay max_delay T0 k
      = init_moduli min_delay max_delay (T0 + k * min_delay) := by
  induction k with
  | zero => simp [advance_slices]
  | succ k ih =>
      rw [advance_slices, ih,
        show T0 + (k + 1) * min_delay = T0 + k * min_delay + min_delay by ring]
      exact update_moduli_init_step min_delay max_delay (T0 + k * min_delay)

/-- Witness for C2 at the spec's worked example: `min_delay = 3`, `max_delay = 5`,
one slice advance from `T = 0`. -/
theorem update_moduli_eq_init_moduli_witness :
    1 ≤ 3 ∧ 1 ≤ 5 ∧ advance_slices 3 5 0 1 = init_moduli 3 5 (0 + 1 * 3) :=
  ⟨by decide, by decide, update_moduli_eq_init_moduli 3 5 0 1 (by decide) (by decide)⟩

/-! ## Theorems: delivery (`deliver_events_5g_`) -/

lemma prepared_timestamps_getD (min_delay clock lag : Nat) (h : lag < min_delay) :
    (prepared_timestamps min_delay clock).getD lag 0 = clock + (lag + 1) := by
  rw [prepared_timestamps, List.getD_eq_getElem?_getD, List.getElem?_map,
    List.getElem?_range h]
  rfl

/-- **C10.** For every thread id and every content of the receive buffer, if the
scheduler's `from_step` is greater than 0 then `deliver_events_5g_` returns true
without forwarding any record, so in mid-slice rounds the thread's contribution
to `others_completed` is true regardless of what was received. -/
theorem deliver_midslice_true (from_step min_delay clock tid : Nat)
    (recv : List SpikeSlot) (h : 0 < from_step) :
    deliver_events_5g from_step min_delay clock tid recv = ([], true) := by
  rw [deliver_events_5g, if_pos h]

/-- Witness for C10: a mid-slice round with a matching record in the buffer. -/
theorem deliver_midslice_true_witness :
    0 < 1 ∧ deliver_events_5g 1 3 0 0 [SpikeSlot.data ⟨0, 1, 2, 0⟩] = ([], true) :=
  ⟨by decide, deliver_midslice_true 1 3 0 0 [SpikeSlot.data ⟨0, 1, 2, 0⟩] (by decide)⟩

/-- **C6.** At the start of a slice (`from_step = 0`), `deliver_events_5g_(tid)`
forwards exactly those receive-buffer records whose embedded thread id equals
`tid`, scanning the entire receive buffer in buffer order, each with timestamp
equal to the current clock advanced by `lag + 1` steps; when `from_step > 0` no
record is forwarded. -/
theorem deliver_events_5g_characterization (min_delay clock tid : Nat)
    (recv : List SpikeSlot)
    (hlag : ∀ slot ∈ recv, lag_ok min_delay slot = true) :
    (deliver_events_5g 0 min_delay clock tid recv).1
      = recv.filterMap (fun slot =>
          match slot with
          | SpikeSlot.data sd =>
            if sd.tid = tid then some (tid, clock + (sd.lag + 1), sd) else none
          | _ => none)
    ∧ ∀ from_step : Nat, 0 < from_step →
        (deliver_events_5g from_step min_delay clock tid recv).1 = [] := by
  constructor
  · rw [deliver_events_5g, if_neg (by omega)]
    apply List.filterMap_congr
    intro slot hmem
    cases slot with
    | data sd =>
      have hl : sd.lag < min_delay := by
        have := hlag _ hmem
        rw [lag_ok] at this
        exact of_decide_eq_true this
      show (if sd.tid = tid
          then some (tid, (prepared_timestamps min_delay clock).getD sd.lag 0, sd)
          else none)
        = (if sd.tid = tid then some (tid, clock + (sd.lag + 1), sd) else none)
      rw [prepared_timestamps_getD min_delay clock sd.lag hl]
    | empty => rfl
    | complete => rfl
  · intro from_step h
    rw [deliver_midslice_true from_step min_delay clock tid recv h]

/-- Witness for C6: one matching record, one sentinel, one record for another
thread. -/
theorem deliver_events_5g_characterization_witness :
    (∀ slot ∈
        [SpikeSlot.data ⟨0, 1, 2, 1⟩, SpikeSlot.complete, SpikeSlot.data ⟨1, 3, 4, 0⟩],
        lag_ok 2 slot = true)
    ∧ (deliver_events_5g 0 2 10 0
          [SpikeSlot.data ⟨0, 1, 2, 1⟩, SpikeSlot.complete, SpikeSlot.data ⟨1, 3, 4, 0⟩]).1
        = [(0, 12, ⟨0, 1, 2, 1⟩)] :=
  ⟨by decide,
    ((deliver_events_5g_characterization 2 10 0
      [SpikeSlot.data ⟨0, 1, 2, 1⟩, SpikeSlot.complete, SpikeSlot.data ⟨1, 3, 4, 0⟩]
      (by decide)).1).trans (by decide)⟩

/-! ## Theorems: target-data distribution -/

/-- **C7.** In the target-data exchange a received record is forwarded to
`add_target` if and only if it is neither `is_empty()` nor `is_complete()` and
its gid resolves to a virtual process local to the receiving rank; empty
records, complete records, and records resolving to a non-local virtual process
are never forwarded. -/
theorem distribute_target_data_filter (is_vp_local : Nat → Bool)
    (recv : List TargetData) (td : TargetData) :
    td ∈ distribute_target_data_buffers is_vp_local recv
      ↔ td ∈ recv ∧ td.is_empty = false ∧ td.is_complete = false
          ∧ is_vp_local td.gid = true := by
  rw [distribute_target_data_buffers, List.mem_filter]
  constructor
  · rintro ⟨hmem, hp⟩
    simp only [Bool.and_eq_true, Bool.not_eq_true'] at hp
    exact ⟨hmem, hp.1.1, hp.1.2, hp.2⟩
  · rintro ⟨hmem, h1, h2, h3⟩
    refine ⟨hmem, ?_⟩
    simp only [Bool.and_eq_true, Bool.not_eq_true']
    exact ⟨⟨h1, h2⟩, h3⟩

/-! ## Theorems: buffer partition arithmetic -/

/-- **C8, counterexample.** With buffer capacity `S = 5` and `P = 2` ranks the
per-rank segment size `m = num_spike_data_per_rank` (integer division: the
`std::ceil` in the source wraps a C++ integer division, so it is a no-op) does
not satisfy `m × P = S`: the last buffer slot lies outside every segment. -/
theorem segment_size_not_exact_cx : ¬ (num_spike_data_per_rank 5 2 * 2 = 5) := by
  decide

/-- **C8, amended.** For every buffer capacity `S` and process count `P ≥ 1` the
per-rank segment size `m = ⌊S / P⌋` satisfies `m × P ≤ S`: the `P` equal-size
contiguous segments are disjoint and none extends past the buffer end, but up to
`P - 1` trailing slots lie outside every segment; the tiling is exact if and
only if `P` divides `S`. -/
theorem segment_size_floor_tiles (S P : Nat) (hP : 1 ≤ P) :
    num_spike_data_per_rank S P * P ≤ S
      ∧ (num_spike_data_per_rank S P * P = S ↔ P ∣ S) := by
  refine ⟨Nat.div_mul_le_self S P, ?_, fun h => Nat.div_mul_cancel h⟩
  intro h
  exact ⟨S / P, by rw [Nat.mul_comm P (S / P)]; exact h.symm⟩

/-- Witness for C8 (amended) at `S = 8`, `P = 2`. -/
theorem segment_size_floor_tiles_witness :
    1 ≤ 2 ∧ (num_spike_data_per_rank 8 2 * 2 ≤ 8
      ∧ (num_spike_data_per_rank 8 2 * 2 = 8 ↔ 2 ∣ 8)) :=
  ⟨by decide, segment_size_floor_tiles 8 2 (by decide)⟩

/-! ## Theorems: collocation -/

lemma get_next_spike_data_eq_some {stream : List SpikeRecord} {p q : RegisterPos}
    {r : SpikeRecord} :
    get_next_spike_data stream p = some (r, q)
      ↔ stream[p.cur]? = some r ∧ q = { p with cur := p.cur + 1 } := by
  rw [get_next_spike_data]
  cases h : stream[p.cur]? with
  | none => simp
  | some s =>
    simp only [Option.some.injEq, Prod.mk.injEq]
    constructor
    · rintro ⟨h1, h2⟩; exact ⟨by rw [h1], h2.symm⟩
    · rintro ⟨h1, h2⟩
      cases h1
      exact ⟨rfl, h2.symm⟩

/-- **C5.** Whenever the collocation loop pulls a record whose destination
rank's segment is already full (`offset = cap`, while not all assigned segments
are full), the record is not written: the step recurses on an unchanged buffer
after `reject_last_spike_data` followed immediately by `save_entry_point`, and
after a subsequent `restore_entry_point` (the next round's restore) the very
same record — not a later one — is the next record pulled, so the deferred
record is not dropped from the stream. -/
theorem collocate_full_segment_reject_save (a : CollocArgs)
    (stream : List SpikeRecord) (fuel : Nat) (p p1 : RegisterPos) (r : SpikeRecord)
    (buf : List SpikeSlot) (offsets : List Nat) (sum : Nat) (untouched : Bool)
    (hpull : get_next_spike_data stream p = some (r, p1))
    (hfull : a.cap ≤ offsets.getD (r.target - a.rank_start) 0)
    (hsum : sum ≠ a.cap * (a.rank_end - a.rank_start)) :
    collocate_loop a stream (fuel + 1) p buf offsets sum untouched
      = collocate_loop a stream fuel
          (save_entry_point (reject_last_spike_data p1)) buf offsets sum untouched
    ∧ ∃ q : RegisterPos,
        get_next_spike_data stream
          (restore_entry_point (save_entry_point (reject_last_spike_data p1)))
        = some (r, q) := by
  obtain ⟨hget, hp1⟩ := get_next_spike_data_eq_some.mp hpull
  constructor
  · rw [collocate_loop, hpull]
    simp only [if_neg (by omega : ¬ offsets.getD (r.target - a.rank_start) 0 < a.cap),
      if_neg hsum]
  · refine ⟨_, get_next_spike_data_eq_some.mpr ⟨?_, rfl⟩⟩
    have : (restore_entry_point (save_entry_point (reject_last_spike_data p1))).cur
        = p.cur := by
      rw [hp1]
      simp [restore_entry_point, save_entry_point, reject_last_spike_data]
    rw [this]
    exact hget

/-- Witness for C5: capacity 1, two assigned ranks, segment of rank 0 already
full, a pending record for rank 0. -/
theorem collocate_full_segment_reject_save_witness :
    (get_next_spike_data [⟨0, ⟨0, 1, 1, 0⟩⟩] ⟨0, 0⟩
        = some (⟨0, ⟨0, 1, 1, 0⟩⟩, ⟨1, 0⟩)
      ∧ (1 : Nat) ≤ [1, 0].getD (0 - 0) 0
      ∧ (1 : Nat) ≠ 1 * (2 - 0))
    ∧ (collocate_loop ⟨1, 0, 2⟩ [⟨0, ⟨0, 1, 1, 0⟩⟩] 1 ⟨0, 0⟩ [] [1, 0] 1 false
        = collocate_loop ⟨1, 0, 2⟩ [⟨0, ⟨0, 1, 1, 0⟩⟩] 0
            (save_entry_point (reject_last_spike_data ⟨1, 0⟩)) [] [1, 0] 1 false
      ∧ ∃ q : RegisterPos,
          get_next_spike_data [⟨0, ⟨0, 1, 1, 0⟩⟩]
            (restore_entry_point (save_entry_point (reject_last_spike_data ⟨1, 0⟩)))
          = some (⟨0, ⟨0, 1, 1, 0⟩⟩, q)) :=
  ⟨⟨by decide, by decide, by decide⟩,
    collocate_full_segment_reject_save ⟨1, 0, 2⟩ [⟨0, ⟨0, 1, 1, 0⟩⟩] 0 ⟨0, 0⟩ ⟨1, 0⟩
      ⟨0, ⟨0, 1, 1, 0⟩⟩ [] [1, 0] 1 false (by decide) (by decide) (by decide)⟩

/-! ## Theorems: collocation step equations -/

lemma collocate_loop_zero (a : CollocArgs) (stream : List SpikeRecord)
    (p : RegisterPos) (buf : List SpikeSlot) (offsets : List Nat) (sum : Nat)
    (untouched : Bool) :
    collocate_loop a stream 0 p buf offsets sum untouched = none := rfl

lemma collocate_loop_succ_none (a : CollocArgs) (stream : List SpikeRecord)
    (fuel : Nat) (p : RegisterPos) (buf : List SpikeSlot) (offsets : List Nat)
    (sum : Nat) (untouched : Bool)
    (hget : get_next_spike_data stream p = none) :
    collocate_loop a stream (fuel + 1) p buf offsets sum untouched
      = some (p, buf, untouched) := by
  rw [collocate_loop, hget]

lemma collocate_loop_succ_write_ret (a : CollocArgs) (stream : List SpikeRecord)
    (fuel : Nat) (p p1 : RegisterPos) (r : SpikeRecord) (buf : List SpikeSlot)
    (offsets : List Nat) (sum : Nat) (untouched : Bool)
    (hget : get_next_spike_data stream p = some (r, p1))
    (hroom : offsets.getD (r.target - a.rank_start) 0 < a.cap)
    (hdone : sum + 1 = a.cap * (a.rank_end - a.rank_start)) :
    collocate_loop a stream (fuel + 1) p buf offsets sum untouched
      = some (p1,
          buf.set (r.target * a.cap + offsets.getD (r.target - a.rank_start) 0)
            (SpikeSlot.data r.sd), false) := by
  rw [collocate_loop, hget]
  simp only [if_pos hroom, if_pos hdone]

lemma collocate_loop_succ_write_cont (a : CollocArgs) (stream : List SpikeRecord)
    (fuel : Nat) (p p1 : RegisterPos) (r : SpikeRecord) (buf : List SpikeSlot)
    (offsets : List Nat) (sum : Nat) (untouched : Bool)
    (hget : get_next_spike_data stream p = some (r, p1))
    (hroom : offsets.getD (r.target - a.rank_start) 0 < a.cap)
    (hdone : sum + 1 ≠ a.cap * (a.rank_end - a.rank_start)) :
    collocate_loop a stream (fuel + 1) p buf offsets sum untouched
      = collocate_loop a stream fuel p1
          (buf.set (r.target * a.cap + offsets.getD (r.target - a.rank_start) 0)
            (SpikeSlot.data r.sd))
          (offsets.set (r.target - a.rank_start)
            (offsets.getD (r.target - a.rank_start) 0 + 1))
          (sum + 1) false := by
  rw [collocate_loop, hget]
  simp only [if_pos hroom, if_neg hdone]

lemma collocate_loop_succ_reject_ret (a : CollocArgs) (stream : List SpikeRecord)
    (fuel : Nat) (p p1 : RegisterPos) (r : SpikeRecord) (buf : List SpikeSlot)
    (offsets : List Nat) (sum : Nat) (untouched : Bool)
    (hget : get_next_spike_data stream p = some (r, p1))
    (hfull : ¬ offsets.getD (r.target - a.rank_start) 0 < a.cap)
    (hsum : sum = a.cap * (a.rank_end - a.rank_start)) :
    collocate_loop a stream (fuel + 1) p buf offsets sum untouched
      = some (save_entry_point (reject_last_spike_data p1), buf, untouched) := by
  rw [collocate_loop, hget]
  simp only [if_neg hfull, if_pos hsum]

lemma collocate_loop_succ_reject_cont (a : CollocArgs) (stream : List SpikeRecord)
    (fuel : Nat) (p p1 : RegisterPos) (r : SpikeRecord) (buf : List SpikeSlot)
    (offsets : List Nat) (sum : Nat) (untouched : Bool)
    (hget : get_next_spike_data stream p = some (r, p1))
    (hfull : ¬ offsets.getD (r.target - a.rank_start) 0 < a.cap)
    (hsum : sum ≠ a.cap * (a.rank_end - a.rank_start)) :
    collocate_loop a stream (fuel + 1) p buf offsets sum untouched
      = collocate_loop a stream fuel (save_entry_point (reject_last_spike_data p1))
          buf offsets sum untouched := by
  rw [collocate_loop, hget]
  simp only [if_neg hfull, if_neg hsum]

/-! ## Theorems: collocation writes stay inside the assigned segments (C9) -/

lemma segment_index_ne (cap tgt tgt2 off off2 : Nat) (hne : tgt ≠ tgt2)
    (h1 : off < cap) (h2 : off2 < cap) :
    tgt * cap + off ≠ tgt2 * cap + off2 := by
  rcases Nat.lt_or_ge tgt tgt2 with h | h
  · have hlt : tgt * cap + off < tgt2 * cap + off2 := by
      calc tgt * cap + off < tgt * cap + cap := by omega
        _ = (tgt + 1) * cap := by ring
        _ ≤ tgt2 * cap := Nat.mul_le_mul_right cap h
        _ ≤ tgt2 * cap + off2 := Nat.le_add_right _ _
    omega
  · have h' : tgt2 + 1 ≤ tgt := by omega
    have hlt : tgt2 * cap + off2 < tgt * cap + off := by
      calc tgt2 * cap + off2 < tgt2 * cap + cap := by omega
        _ = (tgt2 + 1) * cap := by ring
        _ ≤ tgt * cap := Nat.mul_le_mul_right cap h'
        _ ≤ tgt * cap + off := Nat.le_add_right _ _
    omega

lemma mem_map_sd_of_getElem {stream : List SpikeRecord} {n : Nat} {r : SpikeRecord}
    (h : stream[n]? = some r) : r.sd ∈ stream.map SpikeRecord.sd := by
  obtain ⟨hn, hr⟩ := List.getElem?_eq_some.mp h
  exact List.mem_map_of_mem SpikeRecord.sd (hr ▸ List.getElem_mem hn)

lemma mem_of_getElem_some {stream : List SpikeRecord} {n : Nat} {r : SpikeRecord}
    (h : stream[n]? = some r) : r ∈ stream := by
  obtain ⟨hn, hr⟩ := List.getElem?_eq_some.mp h
  exact hr ▸ List.getElem_mem hn

lemma collocate_loop_writes (a : CollocArgs) (stream : List SpikeRecord)
    (hwf : ∀ rec ∈ stream, a.rank_start ≤ rec.target ∧ rec.target < a.rank_end) :
    ∀ fuel p buf offsets sum untouched p' buf' unt',
      collocate_loop a stream fuel p buf offsets sum untouched
          = some (p', buf', unt') →
      buf'.length = buf.length
        ∧ ∀ j : Nat, buf'[j]? ≠ buf[j]? →
            ∃ tgt off sd, a.rank_start ≤ tgt ∧ tgt < a.rank_end ∧ off < a.cap
              ∧ j = tgt * a.cap + off ∧ buf'[j]? = some (SpikeSlot.data sd)
              ∧ sd ∈ stream.map SpikeRecord.sd := by
  intro fuel
  induction fuel with
  | zero =>
    intro p buf offsets sum untouched p' buf' unt' h
    rw [collocate_loop_zero] at h
    exact absurd h (by simp)
  | succ fuel ih =>
    intro p buf offsets sum untouched p' buf' unt' h
    cases hget : get_next_spike_data stream p with
    | none =>
      rw [collocate_loop_succ_none a stream fuel p buf offsets sum untouched hget] at h
      injection h with h'
      have hbuf : buf' = buf := (congrArg (fun x => x.2.1) h').symm
      subst hbuf
      exact ⟨rfl, fun j hj => absurd rfl hj⟩
    | some rp =>
      obtain ⟨r, p1⟩ := rp
      have hr := hwf r (mem_of_getElem_some (get_next_spike_data_eq_some.mp hget).1)
      by_cases hroom : offsets.getD (r.target - a.rank_start) 0 < a.cap
      · set off := offsets.getD (r.target - a.rank_start) 0 with hoff
        set idx := r.target * a.cap + off with hidx
        have hsd : r.sd ∈ stream.map SpikeRecord.sd :=
          mem_map_sd_of_getElem (get_next_spike_data_eq_some.mp hget).1
        have keyset : ∀ j : Nat, (buf.set idx (SpikeSlot.data r.sd))[j]? ≠ buf[j]? →
            j = idx ∧ (buf.set idx (SpikeSlot.data r.sd))[j]? = some (SpikeSlot.data r.sd) := by
          intro j hj
          rw [List.getElem?_set] at hj ⊢
          by_cases hij : idx = j
          · subst hij
            by_cases hlt : idx < buf.length
            · rw [if_pos rfl, if_pos hlt]
              exact ⟨rfl, rfl⟩
            · simp only [if_pos rfl, if_neg hlt] at hj
              exact absurd (List.getElem?_eq_none (by omega)).symm hj
          · simp only [if_neg hij] at hj
            exact absurd rfl hj
        by_cases hdone : sum + 1 = a.cap * (a.rank_end - a.rank_start)
        · rw [collocate_loop_succ_write_ret a stream fuel p p1 r buf offsets sum
            untouched hget hroom hdone] at h
          injection h with h'
          have hbuf' : buf' = buf.set idx (SpikeSlot.data r.sd) :=
            (congrArg (fun x => x.2.1) h').symm
          subst hbuf'
          refine ⟨List.length_set .., fun j hj => ?_⟩
          obtain ⟨hje, h5⟩ := keyset j hj
          exact ⟨r.target, off, r.sd, hr.1, hr.2, hroom, hje.trans hidx, h5, hsd⟩
        · rw [collocate_loop_succ_write_cont a stream fuel p p1 r buf offsets sum
            untouched hget hroom hdone] at h
          obtain ⟨hlen2, hrest⟩ := ih p1 (buf.set idx (SpikeSlot.data r.sd))
            (offsets.set (r.target - a.rank_start) (off + 1)) (sum + 1) false
            p' buf' unt' h
          refine ⟨hlen2.trans (List.length_set ..), fun j hj => ?_⟩
          by_cases hmid : buf'[j]? = (buf.set idx (SpikeSlot.data r.sd))[j]?
          · obtain ⟨hje, h5⟩ := keyset j (by rw [← hmid]; exact hj)
            exact ⟨r.target, off, r.sd, hr.1, hr.2, hroom, hje.trans hidx, hmid.trans h5, hsd⟩
          · exact hrest j hmid
      · by_cases hsum : sum = a.cap * (a.rank_end - a.rank_start)
        · rw [collocate_loop_succ_reject_ret a stream fuel p p1 r buf offsets sum
            untouched hget hroom hsum] at h
          injection h with h'
          have hbuf' : buf' = buf := (congrArg (fun x => x.2.1) h').symm
          subst hbuf'
          exact ⟨rfl, fun j hj => absurd rfl hj⟩
        · rw [collocate_loop_succ_reject_cont a stream fuel p p1 r buf offsets sum
            untouched hget hroom hsum] at h
          exact ih _ buf offsets sum untouched p' buf' unt' h

/-- **C9.** In a completed `collocate_spike_data_buffers_` call in which every
pulled record's destination rank lies in `[rank_start, rank_end)`, every slot of
the send buffer that changed was written at an index `target_rank * m + offset`
with `offset < m` (`m` the per-rank segment size), i.e. inside the destination
rank's own segment and within the bounds of the send buffer; consequently two
collocation calls over disjoint rank ranges (threads' assignments) change
disjoint buffer regions. -/
theorem collocate_writes_within_segments (a b : CollocArgs)
    (stream stream2 : List SpikeRecord) (fuel fuel2 : Nat) (p p' q q' : RegisterPos)
    (buf buf' buf2 buf2' : List SpikeSlot) (unt unt2 : Bool)
    (hwf : ∀ rec ∈ stream, a.rank_start ≤ rec.target ∧ rec.target < a.rank_end)
    (hwf2 : ∀ rec ∈ stream2, b.rank_start ≤ rec.target ∧ rec.target < b.rank_end)
    (hcap : b.cap = a.cap)
    (hdisj : a.rank_end ≤ b.rank_start ∨ b.rank_end ≤ a.rank_start)
    (hbound : a.rank_end * a.cap ≤ buf.length)
    (hres : collocate_spike_data_buffers a stream fuel p buf = some (p', buf', unt))
    (hres2 : collocate_spike_data_buffers b stream2 fuel2 q buf2 = some (q', buf2', unt2)) :
    (∀ j : Nat, buf'[j]? ≠ buf[j]? →
        ∃ tgt off, a.rank_start ≤ tgt ∧ tgt < a.rank_end ∧ off < a.cap
          ∧ j = tgt * a.cap + off ∧ j < buf.length)
      ∧ ∀ j : Nat, buf'[j]? ≠ buf[j]? → buf2'[j]? ≠ buf2[j]? → False := by
  have main : ∀ j : Nat, buf'[j]? ≠ buf[j]? →
      ∃ tgt off sd, a.rank_start ≤ tgt ∧ tgt < a.rank_end ∧ off < a.cap
        ∧ j = tgt * a.cap + off ∧ buf'[j]? = some (SpikeSlot.data sd)
        ∧ sd ∈ stream.map SpikeRecord.sd := by
    rw [collocate_spike_data_buffers] at hres
    by_cases hse : a.rank_start ≠ a.rank_end
    · rw [if_pos hse] at hres
      exact (collocate_loop_writes a stream hwf fuel p buf
        (List.replicate (a.rank_end - a.rank_start) 0) 0 true p' buf' unt hres).2
    · rw [if_neg hse] at hres
      injection hres with h'
      have hbuf' : buf' = buf := (congrArg (fun x => x.2.1) h').symm
      subst hbuf'
      exact fun j hj => absurd rfl hj
  have main2 : ∀ j : Nat, buf2'[j]? ≠ buf2[j]? →
      ∃ tgt off sd, b.rank_start ≤ tgt ∧ tgt < b.rank_end ∧ off < b.cap
        ∧ j = tgt * b.cap + off ∧ buf2'[j]? = some (SpikeSlot.data sd)
        ∧ sd ∈ stream2.map SpikeRecord.sd := by
    rw [collocate_spike_data_buffers] at hres2
    by_cases hse : b.rank_start ≠ b.rank_end
    · rw [if_pos hse] at hres2
      exact (collocate_loop_writes b stream2 hwf2 fuel2 q buf2
        (List.replicate (b.rank_end - b.rank_start) 0) 0 true q' buf2' unt2 hres2).2
    · rw [if_neg hse] at hres2
      injection hres2 with h'
      have hbuf2' : buf2' = buf2 := (congrArg (fun x => x.2.1) h').symm
      subst hbuf2'
      exact fun j hj => absurd rfl hj
  constructor
  · intro j hj
    obtain ⟨tgt, off, sd, h1, h2, h3, h4, h5, h6⟩ := main j hj
    refine ⟨tgt, off, h1, h2, h3, h4, ?_⟩
    calc j = tgt * a.cap + off := h4
      _ < tgt * a.cap + a.cap := by omega
      _ = (tgt + 1) * a.cap := by ring
      _ ≤ a.rank_end * a.cap := Nat.mul_le_mul_right a.cap h2
      _ ≤ buf.length := hbound
  · intro j hj hj2
    obtain ⟨tgt, off, sd, h1, h2, h3, h4, h5, h6⟩ := main j hj
    obtain ⟨tgt2, off2, sd2, g1, g2, g3, g4, g5, g6⟩ := main2 j hj2
    rw [hcap] at g3 g4
    have hne : tgt ≠ tgt2 := by omega
    exact segment_index_ne a.cap tgt tgt2 off off2 hne h3 g3 (h4 ▸ g4)

/-- Witness for C9: two single-record collocation calls with disjoint ranges
`[0,1)` and `[1,2)` on a 4-slot buffer with per-rank segment size 2. -/
theorem collocate_writes_within_segments_witness :
    (collocate_spike_data_buffers ⟨2, 0, 1⟩ [⟨0, ⟨0, 1, 1, 0⟩⟩] 3 ⟨0, 0⟩
        (List.replicate 4 SpikeSlot.complete)
      = some (⟨1, 0⟩, [SpikeSlot.data ⟨0, 1, 1, 0⟩, SpikeSlot.complete,
          SpikeSlot.complete, SpikeSlot.complete], false))
    ∧ ((∀ j : Nat,
          ([SpikeSlot.data ⟨0, 1, 1, 0⟩, SpikeSlot.complete, SpikeSlot.complete,
              SpikeSlot.complete] : List SpikeSlot)[j]?
            ≠ (List.replicate 4 SpikeSlot.complete)[j]? →
          ∃ tgt off, 0 ≤ tgt ∧ tgt < 1 ∧ off < 2 ∧ j = tgt * 2 + off
            ∧ j < (List.replicate 4 SpikeSlot.complete).length)
      ∧ ∀ j : Nat,
          ([SpikeSlot.data ⟨0, 1, 1, 0⟩, SpikeSlot.complete, SpikeSlot.complete,
              SpikeSlot.complete] : List SpikeSlot)[j]?
            ≠ (List.replicate 4 SpikeSlot.complete)[j]? →
          ([SpikeSlot.complete, SpikeSlot.complete, SpikeSlot.data ⟨0, 2, 2, 0⟩,
              SpikeSlot.complete] : List SpikeSlot)[j]?
            ≠ (List.replicate 4 SpikeSlot.complete)[j]? → False) :=
  ⟨by decide,
    collocate_writes_within_segments ⟨2, 0, 1⟩ ⟨2, 1, 2⟩
      [⟨0, ⟨0, 1, 1, 0⟩⟩] [⟨1, ⟨0, 2, 2, 0⟩⟩] 3 3 ⟨0, 0⟩ ⟨1, 0⟩ ⟨0, 0⟩ ⟨1, 0⟩
      (List.replicate 4 SpikeSlot.complete)
      [SpikeSlot.data ⟨0, 1, 1, 0⟩, SpikeSlot.complete, SpikeSlot.complete,
        SpikeSlot.complete]
      (List.replicate 4 SpikeSlot.complete)
      [SpikeSlot.complete, SpikeSlot.complete, SpikeSlot.data ⟨0, 2, 2, 0⟩,
        SpikeSlot.complete]
      false false (by decide) (by decide) rfl (Or.inl (by decide)) (by decide)
      (by decide) (by decide)⟩

/-! ## Theorems: segment and multiset bookkeeping -/

lemma getD_set_self {α : Type} (l : List α) (i : Nat) (v d : α) (h : i < l.length) :
    (l.set i v).getD i d = v := by
  rw [List.getD_eq_getElem?_getD, List.getElem?_set, if_pos rfl, if_pos h]
  rfl

lemma getD_set_ne {α : Type} (l : List α) (i j : Nat) (v d : α) (h : i ≠ j) :
    (l.set i v).getD j d = l.getD j d := by
  rw [List.getD_eq_getElem?_getD, List.getD_eq_getElem?_getD, List.getElem?_set,
    if_neg h]

lemma get_next_spike_data_eq_none {stream : List SpikeRecord} {p : RegisterPos} :
    get_next_spike_data stream p = none ↔ stream[p.cur]? = none := by
  rw [get_next_spike_data]
  cases h : stream[p.cur]? <;> simp

lemma segment_for_getElem (cap tgt : Nat) (buf : List SpikeSlot) (k : Nat) :
    (segment_for cap tgt buf)[k]? = if k < cap then buf[tgt * cap + k]? else none := by
  rw [segment_for, List.getElem?_take]
  by_cases hk : k < cap
  · rw [if_pos hk, if_pos hk, List.getElem?_drop]
  · rw [if_neg hk, if_neg hk]

lemma segment_for_set_inside (cap tgt off : Nat) (v : SpikeSlot) (buf : List SpikeSlot)
    (hoff : off < cap) :
    segment_for cap tgt (buf.set (tgt * cap + off) v)
      = (segment_for cap tgt buf).set off v := by
  apply List.ext_getElem?
  intro k
  rw [List.getElem?_set, segment_for_getElem]
  by_cases hk : k < cap
  · rw [if_pos hk, List.getElem?_set]
    by_cases heq : off = k
    · subst heq
      rw [if_pos rfl, if_pos rfl]
      rw [segment_for, List.length_take, List.length_drop]
      by_cases h2 : tgt * cap + off < buf.length
      · rw [if_pos h2, if_pos (by omega)]
      · rw [if_neg h2, if_neg (by omega)]
    · rw [if_neg heq,
        if_neg (show ¬ tgt * cap + off = tgt * cap + k from fun hc => heq (by omega)),
        segment_for_getElem, if_pos hk]
  · rw [if_neg hk, if_neg (fun heq : off = k => hk (heq ▸ hoff)), segment_for_getElem,
      if_neg hk]

lemma segment_for_set_outside (cap tgt j : Nat) (v : SpikeSlot) (buf : List SpikeSlot)
    (h : ∀ k, k < cap → j ≠ tgt * cap + k) :
    segment_for cap tgt (buf.set j v) = segment_for cap tgt buf := by
  apply List.ext_getElem?
  intro k
  rw [segment_for_getElem, segment_for_getElem]
  by_cases hk : k < cap
  · rw [if_pos hk, if_pos hk, List.getElem?_set, if_neg (h k hk)]
  · rw [if_neg hk, if_neg hk]

lemma realsOf_set_fresh (l : List SpikeSlot) (k : Nat) (sd : SpikeData)
    (hcomp : l[k]? = some SpikeSlot.complete) :
    realsOf (l.set k (SpikeSlot.data sd)) = realsOf l + {sd} := by
  induction l generalizing k with
  | nil => simp at hcomp
  | cons x xs ihx =>
    cases k with
    | zero =>
      rw [List.getElem?_cons_zero] at hcomp
      injection hcomp with hx
      subst hx
      show realsOf (SpikeSlot.data sd :: xs) = realsOf (SpikeSlot.complete :: xs) + {sd}
      rw [realsOf, realsOf, List.filterMap_cons, List.filterMap_cons]
      show (↑(sd :: xs.filterMap SpikeSlot.payload) : Multiset SpikeData)
        = ↑(xs.filterMap SpikeSlot.payload) + {sd}
      rw [← Multiset.cons_coe, ← Multiset.singleton_add, add_comm]
    | succ k =>
      rw [List.getElem?_cons_succ] at hcomp
      show realsOf (x :: xs.set k (SpikeSlot.data sd)) = realsOf (x :: xs) + {sd}
      rw [realsOf, realsOf, List.filterMap_cons, List.filterMap_cons]
      cases hx : x.payload with
      | none => exact ihx k hcomp
      | some y =>
        show (↑(y :: (xs.set k (SpikeSlot.data sd)).filterMap SpikeSlot.payload)
            : Multiset SpikeData)
          = ↑(y :: xs.filterMap SpikeSlot.payload) + {sd}
        rw [← Multiset.cons_coe, ← Multiset.cons_coe, Multiset.cons_add]
        exact congrArg (Multiset.cons y) (ihx k hcomp)

lemma realsOf_segment_write (cap tgt off : Nat) (sd : SpikeData) (buf : List SpikeSlot)
    (hoff : off < cap) (hcomp : buf[tgt * cap + off]? = some SpikeSlot.complete) :
    realsOf (segment_for cap tgt (buf.set (tgt * cap + off) (SpikeSlot.data sd)))
      = realsOf (segment_for cap tgt buf) + {sd} := by
  rw [segment_for_set_inside cap tgt off _ buf hoff]
  apply realsOf_set_fresh
  rw [segment_for_getElem, if_pos hoff]
  exact hcomp

lemma realsOf_segment_other (cap tgt tgt2 off : Nat) (v : SpikeSlot)
    (buf : List SpikeSlot) (hoff : off < cap) (hne : tgt ≠ tgt2) :
    realsOf (segment_for cap tgt2 (buf.set (tgt * cap + off) v))
      = realsOf (segment_for cap tgt2 buf) := by
  rw [segment_for_set_outside]
  intro k hk heq
  exact segment_index_ne cap tgt tgt2 off k hne hoff hk heq

lemma single_filter_coe (r : SpikeRecord) (tgt : Nat) :
    (↑(([r].filter (fun rec => rec.target == tgt)).map SpikeRecord.sd)
        : Multiset SpikeData)
      = if r.target = tgt then ({r.sd} : Multiset SpikeData) else 0 := by
  by_cases h : r.target = tgt
  · rw [if_pos h, List.filter_cons_of_pos (by simp [h]), List.filter_nil,
      List.map_cons, List.map_nil]
    rfl
  · rw [if_neg h, List.filter_cons_of_neg (by simp [h]), List.filter_nil,
      List.map_nil, Multiset.coe_nil]

lemma cons_filter_coe (r : SpikeRecord) (L : List SpikeRecord) (tgt : Nat) :
    (↑(((r :: L).filter (fun rec => rec.target == tgt)).map SpikeRecord.sd)
        : Multiset SpikeData)
      = (if r.target = tgt then ({r.sd} : Multiset SpikeData) else 0)
        + ↑((L.filter (fun rec => rec.target == tgt)).map SpikeRecord.sd) := by
  by_cases h : r.target = tgt
  · rw [if_pos h, List.filter_cons_of_pos (by simp [h]), List.map_cons,
      ← Multiset.cons_coe, ← Multiset.singleton_add]
  · rw [if_neg h, List.filter_cons_of_neg (by simp [h]), zero_add]

/-! ## Theorems: the collocation loop -/

/-- From a state whose next pending record is destined for an already-full
segment (and not all assigned segments are full), the collocation loop never
returns: rejecting and saving reproduces the same state, so the `while (true)`
loop of the source spins. -/
lemma collocate_loop_full_head_none (a : CollocArgs) (stream : List SpikeRecord) :
    ∀ fuel (p : RegisterPos) (r : SpikeRecord) (buf : List SpikeSlot)
      (offsets : List Nat) (sum : Nat) (untouched : Bool),
      stream[p.cur]? = some r →
      ¬ offsets.getD (r.target - a.rank_start) 0 < a.cap →
      sum ≠ a.cap * (a.rank_end - a.rank_start) →
      collocate_loop a stream fuel p buf offsets sum untouched = none := by
  intro fuel
  induction fuel with
  | zero =>
    intro p r buf offsets sum untouched _ _ _
    exact collocate_loop_zero a stream p buf offsets sum untouched
  | succ fuel ih =>
    intro p r buf offsets sum untouched hget hfull hsum
    have hg : get_next_spike_data stream p = some (r, { p with cur := p.cur + 1 }) :=
      get_next_spike_data_eq_some.mpr ⟨hget, rfl⟩
    rw [collocate_loop_succ_reject_cont a stream fuel p _ r buf offsets sum untouched
      hg hfull hsum]
    apply ih _ r _ _ _ _ _ hfull hsum
    show stream[p.cur + 1 - 1]? = some r
    rw [Nat.add_sub_cancel]
    exact hget

/-- The effect of a completed collocation loop run: the committed entry point is
unchanged, the position only advances (within the stream), each in-range
segment's real payloads grow by exactly the payloads of the consumed slice of
the stream destined for that segment, and an untouched buffer means the loop
consumed nothing because the stream was already exhausted. -/
lemma collocate_loop_effect (a : CollocArgs) (stream : List SpikeRecord)
    (hwf : ∀ rec ∈ stream, a.rank_start ≤ rec.target ∧ rec.target < a.rank_end)
    (hcap : 1 ≤ a.cap) :
    ∀ fuel (p : RegisterPos) (buf : List SpikeSlot) (offsets : List Nat) (sum : Nat)
      (untouched : Bool) (p' : RegisterPos) (buf' : List SpikeSlot) (unt' : Bool),
      collocate_loop a stream fuel p buf offsets sum untouched = some (p', buf', unt') →
      offsets.length = a.rank_end - a.rank_start →
      sum < a.cap * (a.rank_end - a.rank_start) →
      p.cur ≤ stream.length →
      (∀ tgt, a.rank_start ≤ tgt → tgt < a.rank_end →
        ∀ off, offsets.getD (tgt - a.rank_start) 0 ≤ off → off < a.cap →
          buf[tgt * a.cap + off]? = some SpikeSlot.complete) →
      p'.saved = p.saved
        ∧ p.cur ≤ p'.cur ∧ p'.cur ≤ stream.length
        ∧ (∀ tgt, a.rank_start ≤ tgt → tgt < a.rank_end →
            realsOf (segment_for a.cap tgt buf')
              = realsOf (segment_for a.cap tgt buf)
                + ↑((((stream.drop p.cur).take (p'.cur - p.cur)).filter
                      (fun rec => rec.target == tgt)).map SpikeRecord.sd))
        ∧ (unt' = true → p' = p ∧ buf' = buf ∧ stream.length ≤ p.cur)
        ∧ (unt' = true → untouched = true) := by
  intro fuel
  induction fuel with
  | zero =>
    intro p buf offsets sum untouched p' buf' unt' h
    rw [collocate_loop_zero] at h
    exact absurd h (by simp)
  | succ fuel ih =>
    intro p buf offsets sum untouched p' buf' unt' h hlen hsum hcur hfresh
    cases hget : get_next_spike_data stream p with
    | none =>
      rw [collocate_loop_succ_none a stream fuel p buf offsets sum untouched hget] at h
      injection h with h'
      have hp : p = p' := congrArg Prod.fst h'
      have hbuf : buf = buf' := congrArg (fun x => x.2.1) h'
      have hunt : untouched = unt' := congrArg (fun x => x.2.2) h'
      have hlen : stream.length ≤ p.cur :=
        List.getElem?_eq_none_iff.mp (get_next_spike_data_eq_none.mp hget)
      refine ⟨by rw [hp], by rw [hp], by rw [← hp]; exact hcur, ?_, ?_, ?_⟩
      · intro tgt _ _
        rw [← hp, ← hbuf, Nat.sub_self, List.take_zero, List.filter_nil, List.map_nil,
          Multiset.coe_nil, add_zero]
      · intro _
        exact ⟨hp.symm, hbuf.symm, hlen⟩
      · intro h1
        rw [hunt]
        exact h1
    | some rp =>
      obtain ⟨r, p1⟩ := rp
      obtain ⟨hgete, hp1⟩ := get_next_spike_data_eq_some.mp hget
      have hcurlt : p.cur < stream.length := (List.getElem?_eq_some.mp hgete).1
      have hr := hwf r (mem_of_getElem_some hgete)
      have hdrop : stream.drop p.cur = r :: stream.drop (p.cur + 1) := by
        rw [List.drop_eq_getElem_cons hcurlt]
        exact congrArg (fun s => s :: stream.drop (p.cur + 1))
          (List.getElem?_eq_some.mp hgete).2
      by_cases hroom : offsets.getD (r.target - a.rank_start) 0 < a.cap
      · set off := offsets.getD (r.target - a.rank_start) 0 with hoffdef
        have hcomp : buf[r.target * a.cap + off]? = some SpikeSlot.complete :=
          hfresh r.target hr.1 hr.2 off (Nat.le_refl _) hroom
        have hreals : ∀ tgt,
            realsOf (segment_for a.cap tgt (buf.set (r.target * a.cap + off)
                (SpikeSlot.data r.sd)))
              = realsOf (segment_for a.cap tgt buf)
                + if r.target = tgt then ({r.sd} : Multiset SpikeData) else 0 := by
          intro tgt
          by_cases htgt : r.target = tgt
          · subst htgt
            rw [realsOf_segment_write a.cap r.target off r.sd buf hroom hcomp,
              if_pos rfl]
          · rw [realsOf_segment_other a.cap r.target tgt off _ buf hroom htgt,
              if_neg htgt, add_zero]
        by_cases hdone : sum + 1 = a.cap * (a.rank_end - a.rank_start)
        · rw [collocate_loop_succ_write_ret a stream fuel p p1 r buf offsets sum
            untouched hget hroom hdone] at h
          injection h with h'
          have hp : p1 = p' := congrArg Prod.fst h'
          have hbuf : buf.set (r.target * a.cap + off) (SpikeSlot.data r.sd) = buf' :=
            congrArg (fun x => x.2.1) h'
          have hunt : (false : Bool) = unt' := congrArg (fun x => x.2.2) h'
          have hcur1 : p'.cur = p.cur + 1 := by rw [← hp, hp1]
          have hsaved1 : p'.saved = p.saved := by rw [← hp, hp1]
          refine ⟨hsaved1, by omega, by omega, ?_, ?_, ?_⟩
          · intro tgt _ _
            rw [← hbuf, hdrop, show p'.cur - p.cur = 0 + 1 by omega,
              List.take_succ_cons, List.take_zero, single_filter_coe]
            exact hreals tgt
          · intro hc; exact absurd (hunt.trans hc) (by simp)
          · intro hc; exact absurd (hunt.trans hc) (by simp)
        · rw [collocate_loop_succ_write_cont a stream fuel p p1 r buf offsets sum
            untouched hget hroom hdone] at h
          have hfresh2 : ∀ tgt, a.rank_start ≤ tgt → tgt < a.rank_end →
              ∀ o, (offsets.set (r.target - a.rank_start) (off + 1)).getD
                  (tgt - a.rank_start) 0 ≤ o → o < a.cap →
                (buf.set (r.target * a.cap + off)
                    (SpikeSlot.data r.sd))[tgt * a.cap + o]? = some SpikeSlot.complete := by
            intro tgt ht1 ht2 o ho1 ho2
            by_cases htgt : r.target = tgt
            · subst htgt
              rw [getD_set_self offsets _ _ 0 (by omega)] at ho1
              rw [List.getElem?_set,
                if_neg (fun hc : r.target * a.cap + off = r.target * a.cap + o =>
                  by omega)]
              exact hfresh r.target ht1 ht2 o (by omega) ho2
            · have hidx : r.target - a.rank_start ≠ tgt - a.rank_start := by
                omega
              rw [getD_set_ne offsets _ _ _ 0 hidx] at ho1
              rw [List.getElem?_set,
                if_neg (segment_index_ne a.cap r.target tgt off o htgt hroom ho2)]
              exact hfresh tgt ht1 ht2 o ho1 ho2
          have hcur1 : p1.cur = p.cur + 1 := by rw [hp1]
          have hsaved1 : p1.saved = p.saved := by rw [hp1]
          obtain ⟨ih1, ih2, ih3, ih4, ih5, ih6⟩ := ih p1
            (buf.set (r.target * a.cap + off) (SpikeSlot.data r.sd))
            (offsets.set (r.target - a.rank_start) (off + 1)) (sum + 1) false
            p' buf' unt' h (by rw [List.length_set]; exact hlen) (by omega)
            (by omega) hfresh2
          refine ⟨ih1.trans hsaved1, by omega, ih3, ?_, ?_, ?_⟩
          · intro tgt ht1 ht2
            have hd : p'.cur - p.cur = (p'.cur - (p.cur + 1)) + 1 := by omega
            rw [ih4 tgt ht1 ht2, hreals tgt, hcur1, hdrop, hd, List.take_succ_cons,
              cons_filter_coe, add_assoc]
          · intro hc
            exact absurd (ih6 hc) (by simp)
          · intro hc
            exact absurd (ih6 hc) (by simp)
      · by_cases hdone : sum = a.cap * (a.rank_end - a.rank_start)
        · omega
        · rw [collocate_loop_succ_reject_cont a stream fuel p p1 r buf offsets sum
            untouched hget hroom hdone] at h
          have : collocate_loop a stream fuel
              (save_entry_point (reject_last_spike_data p1)) buf offsets sum untouched
              = none := by
            apply collocate_loop_full_head_none a stream fuel _ r buf offsets sum
              untouched _ hroom hdone
            show stream[(save_entry_point (reject_last_spike_data p1)).cur]? = some r
            have : (save_entry_point (reject_last_spike_data p1)).cur = p.cur := by
              rw [hp1]
              show p.cur + 1 - 1 = p.cur
              omega
            rw [this]
            exact hgete
          rw [this] at h
          exact absurd h (by simp)

lemma getD_replicate_zero (n i : Nat) : (List.replicate n (0 : Nat)).getD i 0 = 0 := by
  rw [List.getD_eq_getElem?_getD, List.getElem?_replicate]
  by_cases h : i < n
  · rw [if_pos h]; rfl
  · rw [if_neg h]; rfl

lemma slice_subset_stream {stream : List SpikeRecord} {m n : Nat} :
    ∀ rec ∈ (stream.drop m).take n, rec ∈ stream :=
  fun _ hmem => List.mem_of_mem_drop (List.mem_of_mem_take hmem)

lemma segment_unchanged_of_writes (cap s e tgt : Nat) (buf buf' : List SpikeSlot)
    (hch : ∀ j, buf'[j]? ≠ buf[j]? →
      ∃ t2 off, s ≤ t2 ∧ t2 < e ∧ off < cap ∧ j = t2 * cap + off)
    (htgt : tgt < s ∨ e ≤ tgt) :
    segment_for cap tgt buf' = segment_for cap tgt buf := by
  apply List.ext_getElem?
  intro k
  rw [segment_for_getElem, segment_for_getElem]
  by_cases hk : k < cap
  · rw [if_pos hk, if_pos hk]
    by_contra hne
    obtain ⟨t2, off, h1, h2, h3, h4⟩ := hch (tgt * cap + k) hne
    exact segment_index_ne cap t2 tgt off k (by omega) h3 hk h4.symm
  · rw [if_neg hk, if_neg hk]

/-- The effect of one completed `collocate_spike_data_buffers_` call, for a
buffer whose segments of this thread's assigned range are still entirely
"complete": the committed entry point is untouched, the iteration position
advances within the stream, each segment of the buffer gains exactly the
payloads of the consumed stream slice destined for it, an untouched result
means the stream was exhausted, and every changed slot is a real payload of the
stream sitting inside an assigned segment. -/
lemma collocate_buffers_effect (a : CollocArgs) (stream : List SpikeRecord)
    (fuel : Nat) (p p' : RegisterPos) (buf buf' : List SpikeSlot) (unt' : Bool)
    (hwf : ∀ rec ∈ stream, a.rank_start ≤ rec.target ∧ rec.target < a.rank_end)
    (hcap : 1 ≤ a.cap)
    (hle : a.rank_start ≤ a.rank_end)
    (hcur : p.cur ≤ stream.length)
    (hfresh : ∀ tgt, a.rank_start ≤ tgt → tgt < a.rank_end →
      ∀ off, off < a.cap → buf[tgt * a.cap + off]? = some SpikeSlot.complete)
    (hres : collocate_spike_data_buffers a stream fuel p buf = some (p', buf', unt')) :
    p'.saved = p.saved
      ∧ p.cur ≤ p'.cur ∧ p'.cur ≤ stream.length
      ∧ buf'.length = buf.length
      ∧ (∀ tgt : Nat,
          realsOf (segment_for a.cap tgt buf')
            = realsOf (segment_for a.cap tgt buf)
              + ↑((((stream.drop p.cur).take (p'.cur - p.cur)).filter
                    (fun rec => rec.target == tgt)).map SpikeRecord.sd))
      ∧ (unt' = true → p' = p ∧ buf' = buf ∧ stream.length ≤ p.cur)
      ∧ (∀ j, buf'[j]? ≠ buf[j]? →
          ∃ tgt off sd, a.rank_start ≤ tgt ∧ tgt < a.rank_end ∧ off < a.cap
            ∧ j = tgt * a.cap + off ∧ buf'[j]? = some (SpikeSlot.data sd)
            ∧ sd ∈ stream.map SpikeRecord.sd) := by
  rw [collocate_spike_data_buffers] at hres
  by_cases hse : a.rank_start ≠ a.rank_end
  · rw [if_pos hse] at hres
    obtain ⟨hlen, hwrites⟩ := collocate_loop_writes a stream hwf fuel p buf
      (List.replicate (a.rank_end - a.rank_start) 0) 0 true p' buf' unt' hres
    have hfresh0 : ∀ tgt, a.rank_start ≤ tgt → tgt < a.rank_end →
        ∀ off, (List.replicate (a.rank_end - a.rank_start) (0 : Nat)).getD
            (tgt - a.rank_start) 0 ≤ off → off < a.cap →
          buf[tgt * a.cap + off]? = some SpikeSlot.complete := by
      intro tgt h1 h2 off _ h4
      exact hfresh tgt h1 h2 off h4
    obtain ⟨e1, e2, e3, e4, e5, _⟩ := collocate_loop_effect a stream hwf hcap fuel
      p buf (List.replicate (a.rank_end - a.rank_start) 0) 0 true p' buf' unt' hres
      (List.length_replicate _ _)
      (by
        have h1 : 0 < a.rank_end - a.rank_start := by omega
        calc 0 < 1 * 1 := by omega
          _ ≤ a.cap * (a.rank_end - a.rank_start) := Nat.mul_le_mul hcap h1)
      hcur hfresh0
    refine ⟨e1, e2, e3, hlen, ?_, e5, hwrites⟩
    intro tgt
    by_cases htgt : a.rank_start ≤ tgt ∧ tgt < a.rank_end
    · exact e4 tgt htgt.1 htgt.2
    · have hseg : segment_for a.cap tgt buf' = segment_for a.cap tgt buf := by
        apply segment_unchanged_of_writes a.cap a.rank_start a.rank_end tgt buf buf'
        · intro j hj
          obtain ⟨t2, off, sd, h1, h2, h3, h4, _, _⟩ := hwrites j hj
          exact ⟨t2, off, h1, h2, h3, h4⟩
        · omega
      have hnil : ((stream.drop p.cur).take (p'.cur - p.cur)).filter
          (fun rec => rec.target == tgt) = [] := by
        rw [List.filter_eq_nil_iff]
        intro rec hrec
        have := hwf rec (slice_subset_stream rec hrec)
        simp only [beq_iff_eq]
        omega
      rw [hseg, hnil, List.map_nil, Multiset.coe_nil, add_zero]
  · rw [if_neg hse] at hres
    injection hres with h'
    have hp : p = p' := congrArg Prod.fst h'
    have hbuf : buf = buf' := congrArg (fun x => x.2.1) h'
    have hse' : a.rank_start = a.rank_end := not_ne_iff.mp hse
    have hstream : stream = [] := by
      cases hstream : stream with
      | nil => rfl
      | cons rec rest =>
        have := hwf rec (by rw [hstream]; exact List.mem_cons_self rec rest)
        omega
    refine ⟨by rw [hp], by rw [hp], by rw [← hp]; exact hcur, by rw [hbuf], ?_, ?_, ?_⟩
    · intro tgt
      rw [← hp, ← hbuf, Nat.sub_self, List.take_zero, List.filter_nil, List.map_nil,
        Multiset.coe_nil, add_zero]
    · intro _
      refine ⟨hp.symm, hbuf.symm, ?_⟩
      rw [hstream]
      exact Nat.zero_le _
    · intro j hj
      rw [← hbuf] at hj
      exact absurd rfl hj

lemma collocate_threads_nil (cap fuel : Nat) (buf : List SpikeSlot) :
    collocate_threads cap fuel [] buf = some ([], buf, true) := rfl

lemma collocate_threads_cons (cap fuel : Nat) (reg : ThreadReg)
    (rest : List ThreadReg) (buf : List SpikeSlot) :
    collocate_threads cap fuel (reg :: rest) buf
      = match collocate_spike_data_buffers ⟨cap, reg.rank_start, reg.rank_end⟩
            reg.stream fuel reg.pos buf with
        | none => none
        | some (p, buf2, unt) =>
          match collocate_threads cap fuel rest buf2 with
          | none => none
          | some (rest2, buf3, unt2) =>
            some ({ reg with pos := p } :: rest2, buf3, unt && unt2) := rfl

/-- The effect of collocating all threads in turn on a buffer whose slots in
every thread's assigned segments are still "complete". -/
lemma collocate_threads_effect (cap : Nat) (hcap : 1 ≤ cap) (fuel : Nat) :
    ∀ (regs : List ThreadReg) (buf : List SpikeSlot) (regs' : List ThreadReg)
      (buf' : List SpikeSlot) (me : Bool),
      collocate_threads cap fuel regs buf = some (regs', buf', me) →
      (∀ reg ∈ regs,
        (∀ rec ∈ reg.stream, reg.rank_start ≤ rec.target ∧ rec.target < reg.rank_end)
          ∧ reg.rank_start ≤ reg.rank_end
          ∧ reg.pos.cur ≤ reg.stream.length) →
      (∀ reg ∈ regs, ∀ tgt, reg.rank_start ≤ tgt → tgt < reg.rank_end →
        ∀ off, off < cap → buf[tgt * cap + off]? = some SpikeSlot.complete) →
      regs.Pairwise RangesDisjoint →
      buf'.length = buf.length
        ∧ List.Forall₂ (fun reg reg2 : ThreadReg =>
            reg2.stream = reg.stream ∧ reg2.rank_start = reg.rank_start
              ∧ reg2.rank_end = reg.rank_end ∧ reg2.pos.saved = reg.pos.saved
              ∧ reg.pos.cur ≤ reg2.pos.cur ∧ reg2.pos.cur ≤ reg.stream.length)
            regs regs'
        ∧ (∀ tgt : Nat,
            realsOf (segment_for cap tgt buf')
              = realsOf (segment_for cap tgt buf)
                + ↑(((consumed_cur regs regs').filter
                      (fun rec => rec.target == tgt)).map SpikeRecord.sd))
        ∧ (me = true → regs' = regs ∧ buf' = buf
            ∧ ∀ reg ∈ regs, reg.stream.length ≤ reg.pos.cur)
        ∧ (∀ j, buf'[j]? ≠ buf[j]? →
            ∃ reg ∈ regs, ∃ tgt off sd, reg.rank_start ≤ tgt ∧ tgt < reg.rank_end
              ∧ off < cap ∧ j = tgt * cap + off ∧ buf'[j]? = some (SpikeSlot.data sd)
              ∧ sd ∈ reg.stream.map SpikeRecord.sd) := by
  intro regs
  induction regs with
  | nil =>
    intro buf regs' buf' me h _ _ _
    rw [collocate_threads_nil] at h
    injection h with h'
    have hr : ([] : List ThreadReg) = regs' := congrArg Prod.fst h'
    have hb : buf = buf' := congrArg (fun x => x.2.1) h'
    refine ⟨by rw [← hb], by rw [← hr]; exact List.Forall₂.nil, ?_, ?_, ?_⟩
    · intro tgt
      rw [← hb, ← hr, consumed_cur, List.zip_nil_left, List.flatMap_nil,
        List.filter_nil, List.map_nil, Multiset.coe_nil, add_zero]
    · intro _
      exact ⟨hr.symm, hb.symm, fun reg hreg => absurd hreg (List.not_mem_nil reg)⟩
    · intro j hj
      rw [← hb] at hj
      exact absurd rfl hj
  | cons reg rest ihr =>
    intro buf regs' buf' me h hwfs hfresh hdisj
    rw [collocate_threads_cons] at h
    cases hD : collocate_spike_data_buffers ⟨cap, reg.rank_start, reg.rank_end⟩
        reg.stream fuel reg.pos buf with
    | none => rw [hD] at h; exact absurd h (by simp)
    | some trip =>
      obtain ⟨p, buf2, unt⟩ := trip
      rw [hD] at h
      replace h : (match collocate_threads cap fuel rest buf2 with
          | none => none
          | some (rest2, buf3, unt2) =>
            some ({ reg with pos := p } :: rest2, buf3, unt && unt2))
          = some (regs', buf', me) := h
      cases hT : collocate_threads cap fuel rest buf2 with
      | none => rw [hT] at h; exact absurd h (by simp)
      | some trip2 =>
        obtain ⟨rest2, buf3, unt2⟩ := trip2
        rw [hT] at h
        replace h : some ({ reg with pos := p } :: rest2, buf3, unt && unt2)
            = some (regs', buf', me) := h
        injection h with h'
        have hregs' : { reg with pos := p } :: rest2 = regs' := congrArg Prod.fst h'
        have hbuf' : buf3 = buf' := congrArg (fun x => x.2.1) h'
        have hme : (unt && unt2) = me := congrArg (fun x => x.2.2) h'
        subst hregs'
        subst hbuf'
        subst hme
        obtain ⟨hwfh, hleh, hcurh⟩ := hwfs reg (List.mem_cons_self reg rest)
        have hfreshh := hfresh reg (List.mem_cons_self reg rest)
        obtain ⟨b1, b2, b3, blen, breals, bunt, bwrites⟩ :=
          collocate_buffers_effect ⟨cap, reg.rank_start, reg.rank_end⟩ reg.stream
            fuel reg.pos p buf buf2 unt hwfh hcap hleh hcurh hfreshh hD
        have hdisjh : ∀ r2 ∈ rest, RangesDisjoint reg r2 :=
          (List.pairwise_cons.mp hdisj).1
        have hfreshrest : ∀ r2 ∈ rest, ∀ tgt, r2.rank_start ≤ tgt →
            tgt < r2.rank_end → ∀ off, off < cap →
            buf2[tgt * cap + off]? = some SpikeSlot.complete := by
          intro r2 hr2 tgt ht1 ht2 off hoff
          by_cases hch : buf2[tgt * cap + off]? = buf[tgt * cap + off]?
          · rw [hch]
            exact hfresh r2 (List.mem_cons_of_mem reg hr2) tgt ht1 ht2 off hoff
          · exfalso
            obtain ⟨t2, o2, sd, g1, g2, g3, g4, _, _⟩ := bwrites _ hch
            have g1' : reg.rank_start ≤ t2 := g1
            have g2' : t2 < reg.rank_end := g2
            have g3' : o2 < cap := g3
            have g4' : tgt * cap + off = t2 * cap + o2 := g4
            have hd := hdisjh r2 hr2
            rw [RangesDisjoint] at hd
            rcases hd with hd | hd
            · exact segment_index_ne cap t2 tgt o2 off (by omega) g3' hoff g4'.symm
            · exact segment_index_ne cap t2 tgt o2 off (by omega) g3' hoff g4'.symm
        obtain ⟨c1, c2, c3, c4, c5⟩ := ihr buf2 rest2 buf3 unt2 hT
          (fun r2 hr2 => hwfs r2 (List.mem_cons_of_mem reg hr2)) hfreshrest
          (List.pairwise_cons.mp hdisj).2
        have hcc : consumed_cur (reg :: rest) ({ reg with pos := p } :: rest2)
            = (reg.stream.drop reg.pos.cur).take (p.cur - reg.pos.cur)
              ++ consumed_cur rest rest2 := by
          rw [consumed_cur, consumed_cur, List.zip_cons_cons, List.flatMap_cons]
        refine ⟨c1.trans blen, ?_, ?_, ?_, ?_⟩
        · rw [List.forall₂_cons]
          exact ⟨⟨rfl, rfl, rfl, b1, b2, b3⟩, c2⟩
        · intro tgt
          rw [c3 tgt, breals tgt, hcc, List.filter_append, List.map_append,
            ← Multiset.coe_add, add_assoc]
        · intro hmet
          obtain ⟨hu1, hu2⟩ := (Bool.and_eq_true unt unt2) ▸ hmet
          obtain ⟨hp, hb2, hexh⟩ := bunt hu1
          obtain ⟨hr2, hb3, hexr⟩ := c4 hu2
          refine ⟨?_, hb3.trans hb2, ?_⟩
          · rw [hp, hr2]
          · intro r2 hr2m
            rcases List.mem_cons.mp hr2m with hh | hh
            · rw [hh]
              exact hexh
            · exact hexr r2 hh
        · intro j hj
          by_cases hmid : buf3[j]? = buf2[j]?
          · obtain ⟨t2, o2, sd, g1, g2, g3, g4, g5, g6⟩ :=
              bwrites j (by rw [← hmid]; exact hj)
            exact ⟨reg, List.mem_cons_self reg rest, t2, o2, sd, g1, g2, g3, g4,
              hmid.trans g5, g6⟩
          · obtain ⟨r2, hr2m, t2, o2, sd, g1, g2, g3, g4, g5, g6⟩ := c5 j hmid
            exact ⟨r2, List.mem_cons_of_mem reg hr2m, t2, o2, sd, g1, g2, g3, g4,
              g5, g6⟩

/-! ## Theorems: one send half-round of a rank -/

lemma send_buffer_before_collocation_eq (S : Nat) :
    send_buffer_before_collocation S = List.replicate S SpikeSlot.complete := by
  rw [send_buffer_before_collocation, prepare_spike_data_buffers, if_pos rfl,
    List.map_replicate]

lemma consumed_cur_restore (regs : List ThreadReg) :
    ∀ regs2 : List ThreadReg,
      consumed_cur (restore_all regs) regs2 = round_consumed regs (save_all regs2) := by
  induction regs with
  | nil => intro regs2; rfl
  | cons reg rest ihr =>
    intro regs2
    cases regs2 with
    | nil => rfl
    | cons reg2 rest2 =>
      show consumed_cur ({ reg with pos := restore_entry_point reg.pos } :: restore_all rest)
          (reg2 :: rest2)
        = round_consumed (reg :: rest)
            ({ reg2 with pos := save_entry_point reg2.pos } :: save_all rest2)
      rw [consumed_cur, round_consumed, List.zip_cons_cons, List.zip_cons_cons,
        List.flatMap_cons, List.flatMap_cons]
      have h1 : consumed_cur (restore_all rest) rest2
          = round_consumed rest (save_all rest2) := ihr rest2
      rw [consumed_cur, round_consumed] at h1
      rw [h1]
      rfl

lemma round_consumed_save_restore (regs : List ThreadReg) :
    round_consumed regs (save_all (restore_all regs)) = [] := by
  induction regs with
  | nil => rfl
  | cons reg rest ihr =>
    have hzip : round_consumed (reg :: rest) (save_all (restore_all (reg :: rest)))
        = (reg.stream.drop reg.pos.saved).take (reg.pos.saved - reg.pos.saved)
          ++ round_consumed rest (save_all (restore_all rest)) := rfl
    rw [hzip, ihr, List.append_nil, Nat.sub_self, List.take_zero]

lemma filterMap_payload_replicate_complete (n : Nat) :
    (List.replicate n SpikeSlot.complete).filterMap SpikeSlot.payload = [] := by
  induction n with
  | zero => rfl
  | succ n ihn =>
    rw [List.replicate_succ, List.filterMap_cons]
    exact ihn

lemma realsOf_segment_replicate_complete (cap tgt S : Nat) :
    realsOf (segment_for cap tgt (List.replicate S SpikeSlot.complete)) = 0 := by
  rw [segment_for, List.drop_replicate, List.take_replicate, realsOf,
    filterMap_payload_replicate_complete, Multiset.coe_nil]

lemma prepare_true_eq (buf : List SpikeSlot) :
    prepare_spike_data_buffers true buf
      = List.replicate buf.length SpikeSlot.complete := by
  rw [prepare_spike_data_buffers, if_pos rfl]
  apply List.eq_replicate_iff.mpr
  refine ⟨List.length_map buf _, ?_⟩
  intro b hb
  obtain ⟨x, _, hx⟩ := List.mem_map.mp hb
  exact hx.symm

/-- The effect of the send half of one round of `gather_spike_data` on one rank:
the outgoing registers keep their streams and ranges, commit positions only
advance, the send buffer's segment for rank `tgt` holds exactly the payloads of
the records consumed this round destined for `tgt`, every slot is "complete" or
a real stream payload, and an all-untouched round means every stream was already
exhausted and nothing was consumed. -/
lemma rank_send_round_effect (cfg : ProtoCfg) (fuel : Nat)
    (regs regsOut : List ThreadReg) (sendbuf : List SpikeSlot) (me : Bool)
    (hwf : ∀ reg ∈ regs, WFThread cfg reg)
    (hdisj : regs.Pairwise RangesDisjoint)
    (hcap : 1 ≤ num_spike_data_per_rank cfg.buf_size cfg.num_ranks)
    (hres : rank_send_round cfg fuel regs = some (regsOut, sendbuf, me)) :
    sendbuf.length = cfg.buf_size
      ∧ List.Forall₂ (fun reg regO : ThreadReg =>
          regO.stream = reg.stream ∧ regO.rank_start = reg.rank_start
            ∧ regO.rank_end = reg.rank_end ∧ regO.pos.cur = regO.pos.saved
            ∧ reg.pos.saved ≤ regO.pos.saved ∧ regO.pos.saved ≤ reg.stream.length)
          regs regsOut
      ∧ (∀ tgt : Nat,
          realsOf (segment_for (num_spike_data_per_rank cfg.buf_size cfg.num_ranks)
              tgt sendbuf)
            = ↑(((round_consumed regs regsOut).filter
                  (fun rec => rec.target == tgt)).map SpikeRecord.sd))
      ∧ (∀ (j : Nat) (sd : SpikeData), sendbuf[j]? = some (SpikeSlot.data sd) →
          ∃ reg ∈ regs, sd ∈ reg.stream.map SpikeRecord.sd)
      ∧ (∀ j : Nat, j < cfg.buf_size →
          sendbuf[j]? = some SpikeSlot.complete
            ∨ ∃ sd, sendbuf[j]? = some (SpikeSlot.data sd))
      ∧ (me = true → (∀ reg ∈ regs, reg.stream.length ≤ reg.pos.saved)
          ∧ round_consumed regs regsOut = []) := by
  rw [rank_send_round] at hres
  set cap := num_spike_data_per_rank cfg.buf_size cfg.num_ranks with hcapdef
  cases hCT : collocate_threads cap fuel (restore_all regs)
      (send_buffer_before_collocation cfg.buf_size) with
  | none => rw [hCT] at hres; exact absurd hres (by simp)
  | some trip =>
    obtain ⟨regs2, buf2, me'⟩ := trip
    rw [hCT] at hres
    replace hres : some (save_all regs2,
        if me' then prepare_spike_data_buffers me' buf2 else buf2, me')
        = some (regsOut, sendbuf, me) := hres
    injection hres with hres'
    have hrOut : save_all regs2 = regsOut := congrArg Prod.fst hres'
    have hsb : (if me' then prepare_spike_data_buffers me' buf2 else buf2) = sendbuf :=
      congrArg (fun x => x.2.1) hres'
    have hmee : me' = me := congrArg (fun x => x.2.2) hres'
    have hRcap : cfg.num_ranks * cap ≤ cfg.buf_size := by
      rw [hcapdef, num_spike_data_per_rank, Nat.mul_comm]
      exact Nat.div_mul_le_self cfg.buf_size cfg.num_ranks
    have hbuf1 : send_buffer_before_collocation cfg.buf_size
        = List.replicate cfg.buf_size SpikeSlot.complete :=
      send_buffer_before_collocation_eq cfg.buf_size
    have hwfs : ∀ reg ∈ restore_all regs,
        (∀ rec ∈ reg.stream, reg.rank_start ≤ rec.target ∧ rec.target < reg.rank_end)
          ∧ reg.rank_start ≤ reg.rank_end
          ∧ reg.pos.cur ≤ reg.stream.length := by
      intro reg' hreg'
      obtain ⟨r, hr, hfr⟩ := List.mem_map.mp hreg'
      obtain ⟨w1, w2, w3, w4, w5⟩ := hwf r hr
      subst hfr
      exact ⟨fun rec hrec => ⟨(w3 rec hrec).1, (w3 rec hrec).2.1⟩, w1, w5⟩
    have hfresh : ∀ reg ∈ restore_all regs, ∀ tgt, reg.rank_start ≤ tgt →
        tgt < reg.rank_end → ∀ off, off < cap →
        (send_buffer_before_collocation cfg.buf_size)[tgt * cap + off]?
          = some SpikeSlot.complete := by
      intro reg' hreg' tgt ht1 ht2 off hoff
      obtain ⟨r, hr, hfr⟩ := List.mem_map.mp hreg'
      obtain ⟨w1, w2, _, _, _⟩ := hwf r hr
      have hend : reg'.rank_end ≤ cfg.num_ranks := by
        rw [← hfr]
        exact w2
      have hj : tgt * cap + off < cfg.buf_size := by
        calc tgt * cap + off < tgt * cap + cap := by omega
          _ = (tgt + 1) * cap := by ring
          _ ≤ cfg.num_ranks * cap := Nat.mul_le_mul_right cap (by omega)
          _ ≤ cfg.buf_size := hRcap
      rw [hbuf1, List.getElem?_replicate, if_pos hj]
    have hdisj2 : (restore_all regs).Pairwise RangesDisjoint := by
      rw [restore_all, List.pairwise_map]
      exact hdisj
    obtain ⟨clen, cfa, creals, cme, cwrites⟩ :=
      collocate_threads_effect cap hcap fuel (restore_all regs)
        (send_buffer_before_collocation cfg.buf_size) regs2 buf2 me' hCT hwfs
        hfresh hdisj2
    have hbuf2len : buf2.length = cfg.buf_size := by
      rw [clen, hbuf1, List.length_replicate]
    have hsblen : sendbuf.length = cfg.buf_size := by
      rw [← hsb]
      by_cases hmc : me' = true
      · rw [if_pos hmc, hmc, prepare_true_eq, List.length_replicate]
        exact hbuf2len
      · rw [if_neg hmc]
        exact hbuf2len
    have hfa2 : List.Forall₂ (fun reg regO : ThreadReg =>
        regO.stream = reg.stream ∧ regO.rank_start = reg.rank_start
          ∧ regO.rank_end = reg.rank_end ∧ regO.pos.cur = regO.pos.saved
          ∧ reg.pos.saved ≤ regO.pos.saved ∧ regO.pos.saved ≤ reg.stream.length)
        regs regsOut := by
      rw [← hrOut, save_all, List.forall₂_map_right_iff]
      have := (List.forall₂_map_left_iff (f := fun r : ThreadReg =>
        { r with pos := restore_entry_point r.pos })).mp cfa
      refine List.Forall₂.imp ?_ this
      intro reg reg2 hh
      obtain ⟨z1, z2, z3, z4, z5, z6⟩ := hh
      exact ⟨z1, z2, z3, rfl, z5, z6⟩
    have hconsumed : consumed_cur (restore_all regs) regs2
        = round_consumed regs regsOut := by
      rw [← hrOut]
      exact consumed_cur_restore regs regs2
    refine ⟨hsblen, hfa2, ?_, ?_, ?_, ?_⟩
    · intro tgt
      by_cases hmc : me' = true
      · obtain ⟨cr2, cb2, _⟩ := cme hmc
        rw [← hsb, if_pos hmc, hmc, prepare_true_eq, hbuf2len,
          realsOf_segment_replicate_complete]
        rw [← hconsumed, cr2]
        have : consumed_cur (restore_all regs) (restore_all regs)
            = round_consumed regs (save_all (restore_all regs)) :=
          consumed_cur_restore regs (restore_all regs)
        rw [this, round_consumed_save_restore, List.filter_nil, List.map_nil,
          Multiset.coe_nil]
      · rw [← hsb, if_neg hmc, creals tgt, hbuf1,
          realsOf_segment_replicate_complete, zero_add, hconsumed]
    · intro j sd hj
      rw [← hsb] at hj
      by_cases hmc : me' = true
      · rw [if_pos hmc, hmc, prepare_true_eq] at hj
        rw [List.getElem?_replicate] at hj
        by_cases hlt : j < buf2.length
        · rw [if_pos hlt] at hj
          exact absurd hj (by simp)
        · rw [if_neg hlt] at hj
          exact absurd hj (by simp)
      · rw [if_neg hmc] at hj
        by_cases hch : buf2[j]? = (send_buffer_before_collocation cfg.buf_size)[j]?
        · rw [hch, hbuf1, List.getElem?_replicate] at hj
          by_cases hlt : j < cfg.buf_size
          · rw [if_pos hlt] at hj
            exact absurd hj (by simp)
          · rw [if_neg hlt] at hj
            exact absurd hj (by simp)
        · obtain ⟨reg', hreg', _, _, sd2, _, _, _, _, g5, g6⟩ := cwrites j hch
          obtain ⟨r, hr, hfr⟩ := List.mem_map.mp hreg'
          refine ⟨r, hr, ?_⟩
          have hsd2 : sd2 = sd := by
            rw [hj] at g5
            injection g5 with g5'
            injection g5' with g5''
            exact g5''.symm
          have hstreq : reg'.stream = r.stream := by rw [← hfr]
          rw [hstreq, hsd2] at g6
          exact g6
    · intro j hjlt
      rw [← hsb]
      by_cases hmc : me' = true
      · rw [if_pos hmc, hmc, prepare_true_eq, List.getElem?_replicate, hbuf2len,
          if_pos hjlt]
        exact Or.inl rfl
      · rw [if_neg hmc]
        by_cases hch : buf2[j]? = (send_buffer_before_collocation cfg.buf_size)[j]?
        · rw [hch, hbuf1, List.getElem?_replicate, if_pos hjlt]
          exact Or.inl rfl
        · obtain ⟨_, _, _, _, sd2, _, _, _, _, g5, _⟩ := cwrites j hch
          exact Or.inr ⟨sd2, g5⟩
    · intro hmet
      have hmc : me' = true := hmee.trans hmet
      obtain ⟨cr2, cb2, cex⟩ := cme hmc
      constructor
      · intro reg hreg
        have := cex { reg with pos := restore_entry_point reg.pos }
          (List.mem_map.mpr ⟨reg, hreg, rfl⟩)
        exact this
      · rw [← hconsumed, cr2]
        have : consumed_cur (restore_all regs) (restore_all regs)
            = round_consumed regs (save_all (restore_all regs)) :=
          consumed_cur_restore regs (restore_all regs)
        rw [this, round_consumed_save_restore]

/-! ## Theorems: delivery bookkeeping -/

lemma filterMap_cons_toList {α β : Type} (f : α → Option β) (a : α) (l : List α) :
    (a :: l).filterMap f = (f a).toList ++ l.filterMap f := by
  cases h : f a <;> simp [List.filterMap_cons, h]

lemma flatten_map_append_multiset {α β : Type} (L : List α) (h l : α → List β) :
    (↑((L.map (fun t => h t ++ l t)).flatten) : Multiset β)
      = ↑((L.map h).flatten) + ↑((L.map l).flatten) := by
  induction L with
  | nil => rfl
  | cons a L ih =>
    rw [List.map_cons, List.map_cons, List.map_cons, List.flatten_cons,
      List.flatten_cons, List.flatten_cons, ← Multiset.coe_add, ← Multiset.coe_add,
      ← Multiset.coe_add, ← Multiset.coe_add, ih]
    abel

lemma flatten_map_nil_multiset {α β : Type} (L : List α) :
    (↑((L.map (fun _ => ([] : List β))).flatten) : Multiset β) = 0 := by
  induction L with
  | nil => rfl
  | cons a L ih =>
    rw [List.map_cons, List.flatten_cons, List.nil_append]
    exact ih

lemma flatten_map_single_multiset {β : Type} (T i : Nat) (hi : i < T) (g : Nat → β) :
    (↑(((List.range T).map (fun t => if i = t then [g t] else [])).flatten)
        : Multiset β)
      = {g i} := by
  induction T with
  | zero => omega
  | succ T ih =>
    rw [List.range_succ, List.map_append, List.map_cons, List.map_nil,
      List.flatten_append, ← Multiset.coe_add]
    by_cases hiT : i = T
    · subst hiT
      have hz : (↑(((List.range i).map (fun t => if i = t then [g t] else [])).flatten)
          : Multiset β) = 0 := by
        have : ((List.range i).map (fun t => if i = t then [g t] else []))
            = (List.range i).map (fun _ => ([] : List β)) := by
          apply List.map_congr_left
          intro t ht
          rw [if_neg (by have := List.mem_range.mp ht; omega)]
        rw [this]
        exact flatten_map_nil_multiset (List.range i)
      rw [hz, if_pos rfl, List.flatten_cons, List.flatten_nil, List.append_nil,
        zero_add]
      rfl
    · have hi' : i < T := by omega
      rw [ih hi', if_neg hiT, List.flatten_cons, List.flatten_nil, List.append_nil,
        Multiset.coe_nil, add_zero]

lemma realsOf_cons (slot : SpikeSlot) (l : List SpikeSlot) :
    realsOf (slot :: l) = ↑slot.payload.toList + realsOf l := by
  cases slot with
  | data sd =>
    show realsOf (SpikeSlot.data sd :: l) = ↑[sd] + realsOf l
    rw [realsOf, realsOf, List.filterMap_cons]
    show (↑(sd :: l.filterMap SpikeSlot.payload) : Multiset SpikeData) = _
    rw [← Multiset.cons_coe, ← Multiset.singleton_add]
    rfl
  | empty =>
    show realsOf (SpikeSlot.empty :: l) = ↑([] : List SpikeData) + realsOf l
    rw [realsOf, realsOf, Multiset.coe_nil, zero_add]
    rfl
  | complete =>
    show realsOf (SpikeSlot.complete :: l) = ↑([] : List SpikeData) + realsOf l
    rw [realsOf, realsOf, Multiset.coe_nil, zero_add]
    rfl

lemma deliver_events_5g_fst (min_delay clock tid : Nat) (recv : List SpikeSlot) :
    (deliver_events_5g 0 min_delay clock tid recv).1
      = recv.filterMap (fun slot =>
          match slot with
          | SpikeSlot.data sd =>
            if sd.tid = tid then
              some (tid, (prepared_timestamps min_delay clock).getD sd.lag 0, sd)
            else none
          | _ => none) := by
  rw [deliver_events_5g, if_neg (by omega)]

lemma deliver_events_5g_snd (min_delay clock tid : Nat) (recv : List SpikeSlot) :
    (deliver_events_5g 0 min_delay clock tid recv).2
      = (recv.filterMap (fun slot =>
          match slot with
          | SpikeSlot.data sd =>
            if sd.tid = tid then
              some (tid, (prepared_timestamps min_delay clock).getD sd.lag 0, sd)
            else none
          | _ => none)).isEmpty := by
  rw [deliver_events_5g, if_neg (by omega)]

lemma deliver_flatten_payloads (min_delay clock T : Nat) :
    ∀ recv : List SpikeSlot,
      (∀ sd : SpikeData, SpikeSlot.data sd ∈ recv → sd.tid < T) →
      (↑(((((List.range T).map (fun t =>
            (deliver_events_5g 0 min_delay clock t recv).1))).flatten).map
              (fun e : Delivery => e.2.2)) : Multiset SpikeData)
        = realsOf recv := by
  intro recv
  induction recv with
  | nil =>
    intro _
    have : ∀ t : Nat, (deliver_events_5g 0 min_delay clock t []).1 = [] := by
      intro t
      rw [deliver_events_5g_fst]
      rfl
    have h2 : ((List.range T).map (fun t =>
        (deliver_events_5g 0 min_delay clock t ([] : List SpikeSlot)).1))
        = (List.range T).map (fun _ => ([] : List Delivery)) := by
      apply List.map_congr_left
      intro t _
      exact this t
    rw [h2]
    have h3 := flatten_map_nil_multiset (β := Delivery) (List.range T)
    have h4 : ((List.range T).map (fun _ => ([] : List Delivery))).flatten = [] := by
      have := Multiset.coe_eq_coe.mp (h3.trans (Multiset.coe_nil).symm)
      exact List.Perm.eq_nil this
    rw [h4]
    rfl
  | cons slot rest ih =>
    intro hwf
    have hsplit : ((List.range T).map (fun t =>
        (deliver_events_5g 0 min_delay clock t (slot :: rest)).1))
        = (List.range T).map (fun t =>
            ((fun slot2 => match slot2 with
              | SpikeSlot.data sd =>
                if sd.tid = t then
                  some (t, (prepared_timestamps min_delay clock).getD sd.lag 0, sd)
                else none
              | _ => none) slot).toList
            ++ (deliver_events_5g 0 min_delay clock t rest).1) := by
      apply List.map_congr_left
      intro t _
      rw [deliver_events_5g_fst, filterMap_cons_toList, deliver_events_5g_fst]
    rw [hsplit]
    have hmap : ∀ (hl tl : Nat → List Delivery),
        (↑((((List.range T).map (fun t => hl t ++ tl t)).flatten).map
            (fun e : Delivery => e.2.2)) : Multiset SpikeData)
          = ↑((((List.range T).map hl).flatten).map (fun e : Delivery => e.2.2))
            + ↑((((List.range T).map tl).flatten).map (fun e : Delivery => e.2.2)) := by
      intro hl tl
      have h1 := flatten_map_append_multiset (List.range T) hl tl
      have h2 := Multiset.coe_eq_coe.mp h1
      have h3 := h2.map (fun e : Delivery => e.2.2)
      rw [Multiset.coe_eq_coe.mpr h3, List.map_append, ← Multiset.coe_add]
    rw [hmap]
    rw [ih (fun sd hsd => hwf sd (List.mem_cons_of_mem slot hsd)), realsOf_cons]
    congr 1
    cases slot with
    | data sd =>
      have htid : sd.tid < T := hwf sd (List.mem_cons_self _ rest)
      have hform : ((List.range T).map (fun t =>
          ((fun slot2 => match slot2 with
            | SpikeSlot.data sd2 =>
              if sd2.tid = t then
                some (t, (prepared_timestamps min_delay clock).getD sd2.lag 0, sd2)
              else none
            | _ => none) (SpikeSlot.data sd)).toList))
          = (List.range T).map (fun t => if sd.tid = t then
              [(t, (prepared_timestamps min_delay clock).getD sd.lag 0, sd)] else []) := by
        apply List.map_congr_left
        intro t _
        by_cases hc : sd.tid = t
        · rw [if_pos hc]
          show (if sd.tid = t then some (t, _, sd) else none).toList = _
          rw [if_pos hc]
          rfl
        · rw [if_neg hc]
          show (if sd.tid = t then some (t, _, sd) else none).toList = _
          rw [if_neg hc]
          rfl
      rw [hform]
      have hperm := Multiset.coe_eq_coe.mp (flatten_map_single_multiset T sd.tid htid
        (fun t => (t, (prepared_timestamps min_delay clock).getD sd.lag 0, sd)))
      exact Multiset.coe_eq_coe.mpr (hperm.map (fun e : Delivery => e.2.2))
    | empty =>
      have hform : ((List.range T).map (fun t =>
          ((fun slot2 => match slot2 with
            | SpikeSlot.data sd2 =>
              if sd2.tid = t then
                some (t, (prepared_timestamps min_delay clock).getD sd2.lag 0, sd2)
              else none
            | _ => none) SpikeSlot.empty).toList))
          = (List.range T).map (fun _ => ([] : List Delivery)) := by
        apply List.map_congr_left
        intro t _
        rfl
      rw [hform]
      have h3 := flatten_map_nil_multiset (β := Delivery) (List.range T)
      have h4 : ((List.range T).map (fun _ => ([] : List Delivery))).flatten = [] := by
        exact List.Perm.eq_nil (Multiset.coe_eq_coe.mp (h3.trans (Multiset.coe_nil).symm))
      rw [h4]
      rfl
    | complete =>
      have hform : ((List.range T).map (fun t =>
          ((fun slot2 => match slot2 with
            | SpikeSlot.data sd2 =>
              if sd2.tid = t then
                some (t, (prepared_timestamps min_delay clock).getD sd2.lag 0, sd2)
              else none
            | _ => none) SpikeSlot.complete).toList))
          = (List.range T).map (fun _ => ([] : List Delivery)) := by
        apply List.map_congr_left
        intro t _
        rfl
      rw [hform]
      have h3 := flatten_map_nil_multiset (β := Delivery) (List.range T)
      have h4 : ((List.range T).map (fun _ => ([] : List Delivery))).flatten = [] := by
        exact List.Perm.eq_nil (Multiset.coe_eq_coe.mp (h3.trans (Multiset.coe_nil).symm))
      rw [h4]
      rfl

lemma deliver_round_fst (cfg : ProtoCfg) (recv : List SpikeSlot) :
    (deliver_round cfg recv).1
      = ((List.range cfg.num_threads).map (fun t =>
          (deliver_events_5g cfg.from_step cfg.min_delay cfg.clock t recv).1)).flatten := by
  rw [deliver_round]
  show (((List.range cfg.num_threads).map (fun t =>
      deliver_events_5g cfg.from_step cfg.min_delay cfg.clock t recv)).map
        Prod.fst).flatten = _
  rw [List.map_map]
  rfl

lemma deliver_round_snd (cfg : ProtoCfg) (recv : List SpikeSlot) :
    (deliver_round cfg recv).2
      = ((List.range cfg.num_threads).map (fun t =>
          deliver_events_5g cfg.from_step cfg.min_delay cfg.clock t recv)).all
            (fun q => q.2) := rfl

/-- Every delivered entry comes from a real record of the receive buffer: its
thread component is the record's `tid`, its payload is the record, and its
stamp is looked up from the prepared timestamp table at the record's lag. -/
lemma mem_deliver_round (cfg : ProtoCfg) (recv : List SpikeSlot) (e : Delivery)
    (hfrom : cfg.from_step = 0)
    (hmem : e ∈ (deliver_round cfg recv).1) :
    ∃ sd : SpikeData, SpikeSlot.data sd ∈ recv ∧ e.1 = sd.tid ∧ e.2.2 = sd
      ∧ e.2.1 = (prepared_timestamps cfg.min_delay cfg.clock).getD sd.lag 0 := by
  rw [deliver_round_fst, hfrom] at hmem
  obtain ⟨l, hl, hel⟩ := List.mem_flatten.mp hmem
  obtain ⟨t, _, hft⟩ := List.mem_map.mp hl
  rw [← hft, deliver_events_5g_fst] at hel
  obtain ⟨slot, hslot, hfs⟩ := List.mem_filterMap.mp hel
  cases slot with
  | data sd =>
    by_cases hc : sd.tid = t
    · refine ⟨sd, hslot, ?_, ?_, ?_⟩ <;>
        · have : (if sd.tid = t then
              some (t, (prepared_timestamps cfg.min_delay cfg.clock).getD sd.lag 0, sd)
              else none) = some e := hfs
          rw [if_pos hc] at this
          injection this with this'
          rw [← this', ← hc]
    · have : (if sd.tid = t then
          some (t, (prepared_timestamps cfg.min_delay cfg.clock).getD sd.lag 0, sd)
          else none) = some e := hfs
      rw [if_neg hc] at this
      exact absurd this (by simp)
  | empty => exact absurd hfs (by simp)
  | complete => exact absurd hfs (by simp)

/-- `others_completed` as computed by the round (the and-combination of the
per-thread "no spikes delivered" flags): it is true iff the receive buffer holds
no real record, provided every real record carries a thread id of this rank. -/
lemma deliver_round_flag (cfg : ProtoCfg) (recv : List SpikeSlot)
    (hfrom : cfg.from_step = 0)
    (htid : ∀ sd : SpikeData, SpikeSlot.data sd ∈ recv → sd.tid < cfg.num_threads) :
    ((deliver_round cfg recv).2 = true
      ↔ ∀ sd : SpikeData, SpikeSlot.data sd ∉ recv) := by
  rw [deliver_round_snd, hfrom]
  constructor
  · intro hall sd hmem
    have ht := htid sd hmem
    have h1 := List.all_eq_true.mp hall
      (deliver_events_5g 0 cfg.min_delay cfg.clock sd.tid recv)
      (List.mem_map.mpr ⟨sd.tid, List.mem_range.mpr ht, rfl⟩)
    rw [deliver_events_5g_snd, List.isEmpty_eq_true] at h1
    have h2 : (sd.tid, (prepared_timestamps cfg.min_delay cfg.clock).getD sd.lag 0, sd)
        ∈ recv.filterMap (fun slot =>
          match slot with
          | SpikeSlot.data sd2 =>
            if sd2.tid = sd.tid then
              some (sd.tid,
                (prepared_timestamps cfg.min_delay cfg.clock).getD sd2.lag 0, sd2)
            else none
          | _ => none) := by
      apply List.mem_filterMap.mpr
      refine ⟨SpikeSlot.data sd, hmem, ?_⟩
      show (if sd.tid = sd.tid then some (sd.tid, _, sd) else none) = _
      rw [if_pos rfl]
    rw [h1] at h2
    exact absurd h2 (List.not_mem_nil _)
  · intro hno
    apply List.all_eq_true.mpr
    intro x hx
    obtain ⟨t, _, hft⟩ := List.mem_map.mp hx
    rw [← hft, deliver_events_5g_snd, List.isEmpty_eq_true,
      List.filterMap_eq_nil_iff]
    intro slot hslot
    cases slot with
    | data sd => exact absurd hslot (hno sd)
    | empty => rfl
    | complete => rfl

/-! ## Theorems: the all-to-all exchange -/

lemma realsOf_append (l1 l2 : List SpikeSlot) :
    realsOf (l1 ++ l2) = realsOf l1 + realsOf l2 := by
  rw [realsOf, realsOf, realsOf, List.filterMap_append, ← Multiset.coe_add]

lemma realsOf_replicate_complete (n : Nat) :
    realsOf (List.replicate n SpikeSlot.complete) = 0 := by
  rw [realsOf, filterMap_payload_replicate_complete, Multiset.coe_nil]

lemma realsOf_flatten (L : List (List SpikeSlot)) :
    realsOf L.flatten = (L.map realsOf).sum := by
  induction L with
  | nil => rfl
  | cons l L ih =>
    rw [List.flatten_cons, realsOf_append, ih, List.map_cons, List.sum_cons]

/-- The receive buffer of rank `r` holds exactly the real payloads of segment
`r` of every rank's send buffer. -/
lemma realsOf_all_to_all (cfg : ProtoCfg) (bufs : List (List SpikeSlot)) (r : Nat) :
    realsOf (all_to_all cfg bufs r)
      = (bufs.map (fun sb => realsOf
          (segment_for (num_spike_data_per_rank cfg.buf_size cfg.num_ranks) r sb))).sum := by
  rw [all_to_all, realsOf_append, realsOf_replicate_complete, add_zero,
    realsOf_flatten, List.map_map]
  rfl

lemma mem_all_to_all (cfg : ProtoCfg) (bufs : List (List SpikeSlot)) (r : Nat)
    (slot : SpikeSlot) (h : slot ∈ all_to_all cfg bufs r) :
    slot = SpikeSlot.complete ∨ ∃ sb ∈ bufs, slot ∈ sb := by
  rw [all_to_all] at h
  rcases List.mem_append.mp h with h | h
  · obtain ⟨l, hl, hsl⟩ := List.mem_flatten.mp h
    obtain ⟨sb, hsb, hfsb⟩ := List.mem_map.mp hl
    right
    refine ⟨sb, hsb, ?_⟩
    rw [← hfsb] at hsl
    exact List.mem_of_mem_drop (List.mem_of_mem_take hsl)
  · left
    exact List.eq_of_mem_replicate h

/-! ## Theorems: all ranks' send buffers -/

lemma send_rounds_nil (cfg : ProtoCfg) (fuel : Nat) :
    send_rounds cfg fuel [] = some [] := rfl

lemma send_rounds_cons (cfg : ProtoCfg) (fuel : Nat) (rs : RankState)
    (rest : List RankState) :
    send_rounds cfg fuel (rs :: rest)
      = match rank_send_round cfg fuel rs.regs, send_rounds cfg fuel rest with
        | some x, some xs => some (x :: xs)
        | _, _ => none := rfl

lemma send_rounds_char (cfg : ProtoCfg) (fuel : Nat) :
    ∀ (ranks : List RankState) (sends : List (List ThreadReg × List SpikeSlot × Bool)),
      send_rounds cfg fuel ranks = some sends →
      List.Forall₂ (fun (rs : RankState) sd =>
        rank_send_round cfg fuel rs.regs = some sd) ranks sends := by
  intro ranks
  induction ranks with
  | nil =>
    intro sends h
    rw [send_rounds_nil] at h
    injection h with h'
    rw [← h']
    exact List.Forall₂.nil
  | cons rs rest ih =>
    intro sends h
    rw [send_rounds_cons] at h
    cases hH : rank_send_round cfg fuel rs.regs with
    | none =>
      rw [hH] at h
      cases hR : send_rounds cfg fuel rest with
      | none => rw [hR] at h; exact absurd h (by simp)
      | some xs => rw [hR] at h; exact absurd h (by simp)
    | some x =>
      rw [hH] at h
      cases hR : send_rounds cfg fuel rest with
      | none => rw [hR] at h; exact absurd h (by simp)
      | some xs =>
        rw [hR] at h
        replace h : some (x :: xs) = some sends := h
        injection h with h'
        rw [← h']
        exact List.forall₂_cons.mpr ⟨hH, ih xs hR⟩

lemma send_rounds_bufs_wf (cfg : ProtoCfg) (fuel : Nat) :
    ∀ (ranks : List RankState) (sends : List (List ThreadReg × List SpikeSlot × Bool)),
      send_rounds cfg fuel ranks = some sends →
      (∀ rs ∈ ranks, WFRank cfg rs) →
      1 ≤ num_spike_data_per_rank cfg.buf_size cfg.num_ranks →
      ∀ sb ∈ sends.map (fun x => x.2.1),
        sb.length = cfg.buf_size
          ∧ ∀ slot ∈ sb, slot = SpikeSlot.complete
              ∨ ∃ sd, slot = SpikeSlot.data sd ∧ sd.tid < cfg.num_threads
                  ∧ sd.lag < cfg.min_delay := by
  intro ranks sends hsends hwf hcap sb hsb
  obtain ⟨x, hx, hfx⟩ := List.mem_map.mp hsb
  have hchar := send_rounds_char cfg fuel ranks sends hsends
  have hmatch : ∃ rs ∈ ranks, rank_send_round cfg fuel rs.regs = some x := by
    clear hsends hwf hsb hfx
    induction hchar with
    | nil => exact absurd hx (List.not_mem_nil x)
    | cons hrel hrest ih =>
      rcases List.mem_cons.mp hx with he | hm
      · next a b l1 l2 =>
        exact ⟨a, List.mem_cons_self a l1, he ▸ hrel⟩
      · next a b l1 l2 =>
        obtain ⟨rs, hrs, hr⟩ := ih hm
        exact ⟨rs, List.mem_cons_of_mem a hrs, hr⟩
  obtain ⟨rs, hrs, hr⟩ := hmatch
  obtain ⟨_, hwft, hdisj⟩ := hwf rs hrs
  obtain ⟨hlen, _, _, hprov, hdich, _⟩ := rank_send_round_effect cfg fuel rs.regs
    x.1 x.2.1 x.2.2 hwft hdisj hcap (by rw [hr])
  subst hfx
  refine ⟨hlen, ?_⟩
  intro slot hslot
  obtain ⟨j, hj⟩ := List.mem_iff_getElem?.mp hslot
  have hjlt : j < cfg.buf_size := by
    rw [← hlen]
    exact (List.getElem?_eq_some.mp hj).1
  rcases hdich j hjlt with hc | ⟨sd, hsd⟩
  · left
    rw [hj] at hc
    injection hc
  · right
    refine ⟨sd, ?_, ?_⟩
    · rw [hj] at hsd
      injection hsd
    · obtain ⟨reg, hreg, hsdm⟩ := hprov j sd hsd
      obtain ⟨rec, hrec, hrecsd⟩ := List.mem_map.mp hsdm
      obtain ⟨_, _, hstream, _, _⟩ := hwft reg hreg
      obtain ⟨_, _, h3, h4⟩ := hstream rec hrec
      rw [← hrecsd]
      exact ⟨h3, h4⟩

/-- **C3.** In a round of the spike-data exchange at the start of a slice, the
flag `others_completed` (the and-combination of the per-thread
`deliver_events_5g_` results) ends the round true if and only if every record
across the whole receive buffer reports "complete" for its origin rank.  The
receive buffer is the all-to-all exchange of send buffers produced by the
round's send half on every rank. -/
theorem others_completed_iff_all_complete (cfg : ProtoCfg) (fuel : Nat)
    (ranks : List RankState)
    (sends : List (List ThreadReg × List SpikeSlot × Bool)) (r : Nat)
    (hwf : ∀ rs ∈ ranks, WFRank cfg rs)
    (hfrom : cfg.from_step = 0)
    (hcap : 1 ≤ num_spike_data_per_rank cfg.buf_size cfg.num_ranks)
    (hsends : send_rounds cfg fuel ranks = some sends) :
    ((deliver_round cfg (all_to_all cfg (sends.map (fun x => x.2.1)) r)).2 = true)
      ↔ ∀ slot ∈ all_to_all cfg (sends.map (fun x => x.2.1)) r,
          slot = SpikeSlot.complete := by
  have hbufs := send_rounds_bufs_wf cfg fuel ranks sends hsends hwf hcap
  have hslots : ∀ slot ∈ all_to_all cfg (sends.map (fun x => x.2.1)) r,
      slot = SpikeSlot.complete
        ∨ ∃ sd, slot = SpikeSlot.data sd ∧ sd.tid < cfg.num_threads
            ∧ sd.lag < cfg.min_delay := by
    intro slot hslot
    rcases mem_all_to_all cfg (sends.map (fun x => x.2.1)) r slot hslot with h | hsbm
    · exact Or.inl h
    · obtain ⟨sb, hsb, hin⟩ := hsbm
      exact (hbufs sb hsb).2 slot hin
  have htid : ∀ sd : SpikeData,
      SpikeSlot.data sd ∈ all_to_all cfg (sends.map (fun x => x.2.1)) r →
      sd.tid < cfg.num_threads := by
    intro sd h
    rcases hslots _ h with h' | ⟨sd2, he, h1, _⟩
    · exact absurd h' (by simp)
    · injection he with he'
      rw [he']
      exact h1
  rw [deliver_round_flag cfg _ hfrom htid]
  constructor
  · intro hno slot hslot
    rcases hslots slot hslot with h | ⟨sd, he, _, _⟩
    · exact h
    · exact absurd (he ▸ hslot) (hno sd)
  · intro hall sd hmem
    exact absurd (hall _ hmem) (by simp)

/-- Witness for C3: one rank, one thread, one pending record — the flag is false
and indeed not every receive-buffer slot is "complete". -/
theorem others_completed_iff_all_complete_witness :
    ((∀ rs ∈ [(⟨[⟨[⟨0, ⟨0, 9, 9, 0⟩⟩], ⟨0, 0⟩, 0, 1⟩], []⟩ : RankState)],
        WFRank ⟨1, 1, 2, 1, 0, 0⟩ rs)
      ∧ (⟨1, 1, 2, 1, 0, 0⟩ : ProtoCfg).from_step = 0
      ∧ 1 ≤ num_spike_data_per_rank 2 1
      ∧ send_rounds ⟨1, 1, 2, 1, 0, 0⟩ 4 [⟨[⟨[⟨0, ⟨0, 9, 9, 0⟩⟩], ⟨0, 0⟩, 0, 1⟩], []⟩]
          = some [([⟨[⟨0, ⟨0, 9, 9, 0⟩⟩], ⟨1, 1⟩, 0, 1⟩],
              [SpikeSlot.data ⟨0, 9, 9, 0⟩, SpikeSlot.complete], false)])
    ∧ (((deliver_round ⟨1, 1, 2, 1, 0, 0⟩ (all_to_all ⟨1, 1, 2, 1, 0, 0⟩
          (([([⟨[⟨0, ⟨0, 9, 9, 0⟩⟩], ⟨1, 1⟩, 0, 1⟩],
              [SpikeSlot.data ⟨0, 9, 9, 0⟩, SpikeSlot.complete], false)]
            : List (List ThreadReg × List SpikeSlot × Bool)).map
                (fun x => x.2.1)) 0)).2 = true)
        ↔ ∀ slot ∈ all_to_all ⟨1, 1, 2, 1, 0, 0⟩
            (([([⟨[⟨0, ⟨0, 9, 9, 0⟩⟩], ⟨1, 1⟩, 0, 1⟩],
              [SpikeSlot.data ⟨0, 9, 9, 0⟩, SpikeSlot.complete], false)]
            : List (List ThreadReg × List SpikeSlot × Bool)).map
                (fun x => x.2.1)) 0, slot = SpikeSlot.complete) :=
  ⟨⟨by decide, rfl, by decide, by decide⟩,
    others_completed_iff_all_complete ⟨1, 1, 2, 1, 0, 0⟩ 4
      [⟨[⟨[⟨0, ⟨0, 9, 9, 0⟩⟩], ⟨0, 0⟩, 0, 1⟩], []⟩]
      [([⟨[⟨0, ⟨0, 9, 9, 0⟩⟩], ⟨1, 1⟩, 0, 1⟩],
        [SpikeSlot.data ⟨0, 9, 9, 0⟩, SpikeSlot.complete], false)] 0
      (by decide) rfl (by decide) (by decide)⟩

/-! ## Theorems: the send-buffer stamping bug (C4) -/

/-- **C4 (refuting evaluation).** The claim says the send buffer entering
collocation is stamped "empty" whenever this rank's local spike source is not
yet exhausted.  In `gather_spike_data` the shared `me_completed` flag is reset
to `true` immediately before the first `prepare_spike_data_buffers_` call of
every round, so the buffer entering collocation is stamped "complete" on every
slot in every round — also when the register still holds pending records — and
it never equals the all-"empty" stamping the claim requires (here evaluated at
buffer size 4). -/
theorem spike_send_buffer_always_stamped_complete :
    (∀ S : Nat, send_buffer_before_collocation S = List.replicate S SpikeSlot.complete)
    ∧ send_buffer_before_collocation 4
        ≠ prepare_spike_data_buffers false (List.replicate 4 SpikeSlot.empty) := by
  exact ⟨send_buffer_before_collocation_eq, by decide⟩

/-! ## Theorems: one global round -/

lemma finish_round_cons (cfg : ProtoCfg) (bufs : List (List SpikeSlot))
    (rs : RankState) (restR : List RankState)
    (sd : List ThreadReg × List SpikeSlot × Bool)
    (restS : List (List ThreadReg × List SpikeSlot × Bool)) (r0 : Nat) :
    finish_round cfg bufs (rs :: restR) (sd :: restS) r0
      = ({ regs := sd.1,
           delivered := rs.delivered
             ++ (deliver_round cfg (all_to_all cfg bufs r0)).1 }
            :: (finish_round cfg bufs restR restS (r0 + 1)).1,
         (sd.2.2 && (deliver_round cfg (all_to_all cfg bufs r0)).2)
            :: (finish_round cfg bufs restR restS (r0 + 1)).2) := rfl

lemma finish_round_char (cfg : ProtoCfg) (bufs : List (List SpikeSlot)) :
    ∀ (ranksL : List RankState)
      (sendsL : List (List ThreadReg × List SpikeSlot × Bool)) (r0 : Nat),
      ranksL.length = sendsL.length →
      (finish_round cfg bufs ranksL sendsL r0).1.length = ranksL.length
      ∧ (finish_round cfg bufs ranksL sendsL r0).2.length = ranksL.length
      ∧ ∀ k : Nat, k < ranksL.length →
          (finish_round cfg bufs ranksL sendsL r0).1.getD k ⟨[], []⟩
            = { regs := (sendsL.getD k ([], [], false)).1,
                delivered := (ranksL.getD k ⟨[], []⟩).delivered
                  ++ (deliver_round cfg (all_to_all cfg bufs (r0 + k))).1 }
          ∧ (finish_round cfg bufs ranksL sendsL r0).2.getD k false
            = ((sendsL.getD k ([], [], false)).2.2
                && (deliver_round cfg (all_to_all cfg bufs (r0 + k))).2) := by
  intro ranksL
  induction ranksL with
  | nil =>
    intro sendsL r0 _
    refine ⟨rfl, rfl, ?_⟩
    intro k hk
    exact absurd hk (by simp)
  | cons rs restR ih =>
    intro sendsL r0 hlen
    cases sendsL with
    | nil => exact absurd hlen (by simp)
    | cons sd restS =>
      have hlen' : restR.length = restS.length := by
        rw [List.length_cons, List.length_cons] at hlen
        omega
      obtain ⟨ih1, ih2, ih3⟩ := ih restS (r0 + 1) hlen'
      rw [finish_round_cons]
      refine ⟨by rw [List.length_cons, ih1, List.length_cons],
        by rw [List.length_cons, ih2, List.length_cons], ?_⟩
      intro k hk
      cases k with
      | zero =>
        rw [List.getD_cons_zero, List.getD_cons_zero, List.getD_cons_zero,
          List.getD_cons_zero, Nat.add_zero]
        exact ⟨rfl, rfl⟩
      | succ k' =>
        rw [List.getD_cons_succ, List.getD_cons_succ, List.getD_cons_succ,
          List.getD_cons_succ]
        have hk' : k' < restR.length := by
          rw [List.length_cons] at hk
          omega
        have hadd : r0 + (k' + 1) = r0 + 1 + k' := by omega
        rw [hadd]
        exact ih3 k' hk'

lemma forall₂_mem_right {α β : Type} {R : α → β → Prop} :
    ∀ {l1 : List α} {l2 : List β}, List.Forall₂ R l1 l2 →
      ∀ b ∈ l2, ∃ a ∈ l1, R a b := by
  intro l1 l2 h
  induction h with
  | nil =>
    intro b hb
    exact absurd hb (List.not_mem_nil b)
  | cons hrel hrest ih =>
    next a b' l1' l2' =>
    intro b hb
    rcases List.mem_cons.mp hb with he | hm
    · exact ⟨a, List.mem_cons_self a l1', he ▸ hrel⟩
    · obtain ⟨x, hx, hr⟩ := ih b hm
      exact ⟨x, List.mem_cons_of_mem a hx, hr⟩

lemma round_consumed_cons (a b : ThreadReg) (l1 l2 : List ThreadReg) :
    round_consumed (a :: l1) (b :: l2)
      = (a.stream.drop a.pos.saved).take (b.pos.saved - a.pos.saved)
        ++ round_consumed l1 l2 := by
  rw [round_consumed, List.zip_cons_cons, List.flatMap_cons, round_consumed]

lemma consumed_to_cons (r : Nat) (rs : RankState) (l : List RankState) :
    consumed_to r (rs :: l)
      = ↑(rs.regs.flatMap (fun reg =>
          ((reg.stream.take reg.pos.saved).filter
            (fun rec => rec.target == r)).map SpikeRecord.sd))
        + consumed_to r l := by
  rw [consumed_to, consumed_to, List.flatMap_cons, Multiset.coe_add]

lemma sent_to_cons (r : Nat) (rs : RankState) (l : List RankState) :
    sent_to r (rs :: l)
      = ↑(rs.regs.flatMap (fun reg =>
          (reg.stream.filter (fun rec => rec.target == r)).map SpikeRecord.sd))
        + sent_to r l := by
  rw [sent_to, sent_to, List.flatMap_cons, Multiset.coe_add]

/-- Consuming one round advances each per-rank committed multiset by exactly
the records of the round's consumed slices. -/
lemma consumed_step_rank (r : Nat) {regs regsO : List ThreadReg}
    (h : List.Forall₂ (fun reg regO : ThreadReg =>
        regO.stream = reg.stream ∧ reg.pos.saved ≤ regO.pos.saved
          ∧ regO.pos.saved ≤ reg.stream.length) regs regsO) :
    (↑(regsO.flatMap (fun reg =>
        ((reg.stream.take reg.pos.saved).filter
          (fun rec => rec.target == r)).map SpikeRecord.sd)) : Multiset SpikeData)
      = ↑(regs.flatMap (fun reg =>
          ((reg.stream.take reg.pos.saved).filter
            (fun rec => rec.target == r)).map SpikeRecord.sd))
        + ↑(((round_consumed regs regsO).filter
            (fun rec => rec.target == r)).map SpikeRecord.sd) := by
  induction h with
  | nil => rfl
  | cons hrel hrest ih =>
    next a b l1 l2 =>
    obtain ⟨hstr, hmono, hlen⟩ := hrel
    rw [List.flatMap_cons, List.flatMap_cons, round_consumed_cons,
      List.filter_append, List.map_append, ← Multiset.coe_add,
      ← Multiset.coe_add, ← Multiset.coe_add, ih]
    have hhead : (↑(((b.stream.take b.pos.saved).filter
          (fun rec => rec.target == r)).map SpikeRecord.sd) : Multiset SpikeData)
        = ↑(((a.stream.take a.pos.saved).filter
            (fun rec => rec.target == r)).map SpikeRecord.sd)
          + ↑((((a.stream.drop a.pos.saved).take
                (b.pos.saved - a.pos.saved)).filter
              (fun rec => rec.target == r)).map SpikeRecord.sd) := by
      have hsplit : b.pos.saved = a.pos.saved + (b.pos.saved - a.pos.saved) := by
        omega
      rw [hstr, hsplit, List.take_add, List.filter_append, List.map_append,
        ← Multiset.coe_add, Nat.add_sub_cancel_left]
    rw [hhead]
    abel


/-- Summing the per-destination segments of every rank's send buffer gives the
multiset of records every rank consumed this round that are destined for `r`. -/
lemma reals_sum_ranks (cfg : ProtoCfg) (fuel : Nat) (r : Nat)
    (hcap : 1 ≤ num_spike_data_per_rank cfg.buf_size cfg.num_ranks) :
    ∀ {ranks : List RankState}
      {sends : List (List ThreadReg × List SpikeSlot × Bool)},
      List.Forall₂ (fun (rs : RankState) sd =>
        rank_send_round cfg fuel rs.regs = some sd) ranks sends →
      (∀ rs ∈ ranks, WFRank cfg rs) →
      ((sends.map (fun x => x.2.1)).map (fun sb =>
          realsOf (segment_for
            (num_spike_data_per_rank cfg.buf_size cfg.num_ranks) r sb))).sum
        = ↑((((ranks.zip sends).flatMap
              (fun p => round_consumed p.1.regs p.2.1)).filter
            (fun rec => rec.target == r)).map SpikeRecord.sd) := by
  intro ranks sends h
  induction h with
  | nil =>
    intro _
    rfl
  | cons hrel hrest ih =>
    next rs sd l1 l2 =>
    intro hwf
    have hwfh := hwf rs (List.mem_cons_self rs l1)
    obtain ⟨_, hwft, hdisj⟩ := hwfh
    obtain ⟨_, _, hseg, _, _, _⟩ := rank_send_round_effect cfg fuel rs.regs
      sd.1 sd.2.1 sd.2.2 hwft hdisj hcap (by rw [hrel])
    rw [List.map_cons, List.map_cons, List.sum_cons, List.zip_cons_cons,
      List.flatMap_cons, List.filter_append, List.map_append,
      ← Multiset.coe_add, hseg r,
      ih (fun x hx => hwf x (List.mem_cons_of_mem rs hx))]

/-- Advancing every rank by one round moves the globally committed multiset for
destination `r` forward by exactly the records consumed this round for `r`. -/
lemma consumed_to_global_step (cfg : ProtoCfg) (fuel : Nat) (r : Nat)
    (hcap : 1 ≤ num_spike_data_per_rank cfg.buf_size cfg.num_ranks) :
    ∀ {ranks : List RankState}
      {sends : List (List ThreadReg × List SpikeSlot × Bool)}
      {ranks2 : List RankState},
      List.Forall₂ (fun (rs : RankState) sd =>
        rank_send_round cfg fuel rs.regs = some sd) ranks sends →
      (∀ rs ∈ ranks, WFRank cfg rs) →
      List.Forall₂ (fun (rs2 : RankState) sd => rs2.regs = sd.1) ranks2 sends →
      consumed_to r ranks2
        = consumed_to r ranks
          + ↑((((ranks.zip sends).flatMap
                (fun p => round_consumed p.1.regs p.2.1)).filter
              (fun rec => rec.target == r)).map SpikeRecord.sd) := by
  intro ranks sends ranks2 h
  induction h generalizing ranks2 with
  | nil =>
    intro _ h2
    cases h2
    rfl
  | cons hrel hrest ih =>
    next rs sd l1 l2 =>
    intro hwf h2
    cases h2 with
    | cons hrel2 hrest2 =>
      next rs2 l2' =>
      have hwfh := hwf rs (List.mem_cons_self rs l1)
      obtain ⟨_, hwft, hdisj⟩ := hwfh
      obtain ⟨_, hF, _, _, _, _⟩ := rank_send_round_effect cfg fuel rs.regs
        sd.1 sd.2.1 sd.2.2 hwft hdisj hcap (by rw [hrel])
      have hstep := consumed_step_rank r
        (hF.imp (fun a b hab => ⟨hab.1, hab.2.2.2.2.1, by
          have := hab.2.2.2.2.2
          rw [← hab.1]
          rw [← hab.1] at this
          exact this⟩))
      rw [consumed_to_cons, consumed_to_cons, List.zip_cons_cons,
        List.flatMap_cons, List.filter_append, List.map_append,
        ← Multiset.coe_add, hrel2, hstep,
        ih (fun x hx => hwf x (List.mem_cons_of_mem rs hx)) hrest2]
      abel

/-- Streams are untouched by the round, thread-level congruence. -/
lemma sent_regs_congr (r : Nat) {regs regsO : List ThreadReg}
    (h : List.Forall₂ (fun reg regO : ThreadReg =>
        regO.stream = reg.stream) regs regsO) :
    regsO.flatMap (fun reg =>
        (reg.stream.filter (fun rec => rec.target == r)).map SpikeRecord.sd)
      = regs.flatMap (fun reg =>
          (reg.stream.filter (fun rec => rec.target == r)).map SpikeRecord.sd) := by
  induction h with
  | nil => rfl
  | cons hrel hrest ih =>
    rw [List.flatMap_cons, List.flatMap_cons, hrel, ih]

/-- Streams are untouched by the round, rank-level congruence. -/
lemma sent_to_congr (r : Nat) {ranks ranks2 : List RankState}
    (h : List.Forall₂ (fun rs rs2 : RankState =>
        List.Forall₂ (fun reg regO : ThreadReg =>
          regO.stream = reg.stream) rs.regs rs2.regs) ranks ranks2) :
    sent_to r ranks2 = sent_to r ranks := by
  induction h with
  | nil => rfl
  | cons hrel hrest ih =>
    rw [sent_to_cons, sent_to_cons, ih, sent_regs_congr r hrel]

/-- Well-formedness of a rank's registers survives the round. -/
lemma wfregs_transfer (cfg : ProtoCfg) {regs regsO : List ThreadReg}
    (hwf : ∀ reg ∈ regs, WFThread cfg reg)
    (hdisj : regs.Pairwise RangesDisjoint)
    (hF : List.Forall₂ (fun reg regO : ThreadReg =>
        regO.stream = reg.stream ∧ regO.rank_start = reg.rank_start
          ∧ regO.rank_end = reg.rank_end ∧ regO.pos.cur = regO.pos.saved
          ∧ reg.pos.saved ≤ regO.pos.saved ∧ regO.pos.saved ≤ reg.stream.length)
        regs regsO) :
    (∀ regO ∈ regsO, WFThread cfg regO) ∧ regsO.Pairwise RangesDisjoint := by
  induction hF with
  | nil => exact ⟨fun x hx => absurd hx (List.not_mem_nil x), List.Pairwise.nil⟩
  | cons hrel hrest ih =>
    next a b l1 l2 =>
    obtain ⟨hstr, hrs, hre, hcs, hmono, hlen⟩ := hrel
    rw [List.pairwise_cons] at hdisj
    obtain ⟨hdh, hdt⟩ := hdisj
    obtain ⟨ih1, ih2⟩ := ih (fun x hx => hwf x (List.mem_cons_of_mem a hx)) hdt
    obtain ⟨w1, w2, w3, _, _⟩ := hwf a (List.mem_cons_self a l1)
    refine ⟨?_, ?_⟩
    · intro regO hregO
      rcases List.mem_cons.mp hregO with he | hm
      · subst he
        refine ⟨by rw [hrs, hre]; exact w1, by rw [hre]; exact w2, ?_, hcs, ?_⟩
        · intro rec hrec
          rw [hstr] at hrec
          obtain ⟨g1, g2, g3, g4⟩ := w3 rec hrec
          exact ⟨by rw [hrs]; exact g1, by rw [hre]; exact g2, g3, g4⟩
        · rw [hstr]
          exact hlen
      · exact ih1 regO hm
    · rw [List.pairwise_cons]
      refine ⟨?_, ih2⟩
      intro y hy
      obtain ⟨x, hx, hxrel⟩ := forall₂_mem_right hrest y hy
      obtain ⟨_, hxs, hxe, _, _, _⟩ := hxrel
      have hd := hdh x hx
      rw [RangesDisjoint] at hd
      rw [RangesDisjoint, hrs, hre, hxs, hxe]
      exact hd


/-- One global round preserves the protocol invariant. -/
lemma global_round_effect (cfg : ProtoCfg) (fuel : Nat) (ranks0 : List RankState)
    (hfrom : cfg.from_step = 0)
    (hcap : 1 ≤ num_spike_data_per_rank cfg.buf_size cfg.num_ranks)
    (sys : SysState) (ranks2 : List RankState) (exits : List Bool)
    (hinv : ProtoInv cfg ranks0 sys)
    (hres : global_round cfg fuel sys.ranks = some (ranks2, exits)) :
    ProtoInv cfg ranks0 ⟨ranks2, exits⟩ := by
  obtain ⟨⟨hlenR, hlenE, hwfR⟩, hsent, hdel, hentry, _⟩ := hinv
  rw [global_round] at hres
  cases hS : send_rounds cfg fuel sys.ranks with
  | none => rw [hS] at hres; exact absurd hres (by simp)
  | some sends =>
    rw [hS] at hres
    replace hres : some (finish_round cfg (sends.map (fun x => x.2.1))
        sys.ranks sends 0) = some (ranks2, exits) := hres
    injection hres with hfin
    have hr2 : (finish_round cfg (sends.map (fun x => x.2.1))
        sys.ranks sends 0).1 = ranks2 := congrArg Prod.fst hfin
    have he2 : (finish_round cfg (sends.map (fun x => x.2.1))
        sys.ranks sends 0).2 = exits := congrArg Prod.snd hfin
    have hchar := send_rounds_char cfg fuel sys.ranks sends hS
    have hlenS : sys.ranks.length = sends.length := hchar.length_eq
    obtain ⟨hl1, hl2, hpt⟩ := finish_round_char cfg
      (sends.map (fun x => x.2.1)) sys.ranks sends 0 hlenS
    rw [hr2] at hl1
    rw [he2] at hl2
    have hpt1 : ∀ k : Nat, k < sys.ranks.length →
        ranks2.getD k ⟨[], []⟩
          = { regs := (sends.getD k ([], [], false)).1,
              delivered := (sys.ranks.getD k ⟨[], []⟩).delivered
                ++ (deliver_round cfg
                    (all_to_all cfg (sends.map (fun x => x.2.1)) k)).1 } := by
      intro k hk
      have h0 := (hpt k hk).1
      rw [hr2, Nat.zero_add] at h0
      exact h0
    have hpt2 : ∀ k : Nat, k < sys.ranks.length →
        exits.getD k false
          = ((sends.getD k ([], [], false)).2.2
              && (deliver_round cfg
                  (all_to_all cfg (sends.map (fun x => x.2.1)) k)).2) := by
      intro k hk
      have h0 := (hpt k hk).2
      rw [he2, Nat.zero_add] at h0
      exact h0
    have heff : ∀ (k : Nat) (hk : k < sys.ranks.length) (hks : k < sends.length),
        rank_send_round cfg fuel (sys.ranks[k]).regs = some (sends[k]) := by
      intro k hk hks
      have h2 := (List.forall₂_iff_get.mp hchar).2 k hk hks
      rw [List.get_eq_getElem, List.get_eq_getElem] at h2
      exact h2
    have hwfk : ∀ (k : Nat) (hk : k < sys.ranks.length), WFRank cfg (sys.ranks[k]) :=
      fun k hk => hwfR _ (List.getElem_mem hk)
    have hbw := send_rounds_bufs_wf cfg fuel sys.ranks sends hS hwfR hcap
    have htid : ∀ (rIdx : Nat) (sd : SpikeData),
        SpikeSlot.data sd ∈ all_to_all cfg (sends.map (fun x => x.2.1)) rIdx →
        sd.tid < cfg.num_threads ∧ sd.lag < cfg.min_delay := by
      intro rIdx sd hmem
      rcases mem_all_to_all cfg _ rIdx _ hmem with hc | ⟨sb, hsb, hslot⟩
      · exact absurd hc (by simp)
      · obtain ⟨_, hdich⟩ := hbw sb hsb
        rcases hdich _ hslot with hc | ⟨sd2, hsd2, ht, hl⟩
        · exact absurd hc (by simp)
        · injection hsd2 with hsd'
          rw [hsd']
          exact ⟨ht, hl⟩
    have hpay : ∀ rIdx : Nat,
        (↑(((deliver_round cfg
              (all_to_all cfg (sends.map (fun x => x.2.1)) rIdx)).1).map
            (fun e : Delivery => e.2.2)) : Multiset SpikeData)
          = realsOf (all_to_all cfg (sends.map (fun x => x.2.1)) rIdx) := by
      intro rIdx
      rw [deliver_round_fst, hfrom]
      exact deliver_flatten_payloads cfg.min_delay cfg.clock cfg.num_threads _
        (fun sd hmem => (htid rIdx sd hmem).1)
    have hF2 : List.Forall₂ (fun (rs2 : RankState) sd => rs2.regs = sd.1)
        ranks2 sends := by
      rw [List.forall₂_iff_get]
      refine ⟨by rw [hl1]; exact hlenS, ?_⟩
      intro i h1 h2
      rw [List.get_eq_getElem, List.get_eq_getElem]
      have hi : i < sys.ranks.length := by rw [← hl1]; exact h1
      have hval := hpt1 i hi
      rw [List.getD_eq_getElem ranks2 ⟨[], []⟩ h1,
        List.getD_eq_getElem sends ([], [], false) h2] at hval
      rw [hval]
    have hFr2 : List.Forall₂ (fun rs rs2 : RankState =>
        List.Forall₂ (fun reg regO : ThreadReg => regO.stream = reg.stream)
          rs.regs rs2.regs) sys.ranks ranks2 := by
      rw [List.forall₂_iff_get]
      refine ⟨hl1.symm, ?_⟩
      intro i h1 h2
      rw [List.get_eq_getElem, List.get_eq_getElem]
      have hks : i < sends.length := by rw [← hlenS]; exact h1
      have hval := hpt1 i h1
      rw [List.getD_eq_getElem ranks2 ⟨[], []⟩ h2,
        List.getD_eq_getElem sends ([], [], false) hks] at hval
      rw [hval]
      obtain ⟨_, hF, _⟩ := rank_send_round_effect cfg fuel _ _ _ _
        (hwfk i h1).2.1 (hwfk i h1).2.2 hcap (heff i h1 hks)
      exact hF.imp (fun a b hab => hab.1)
    refine ⟨⟨?_, ?_, ?_⟩, ?_, ?_, ?_, ?_⟩
    · show ranks2.length = cfg.num_ranks
      rw [hl1]
      exact hlenR
    · show exits.length = cfg.num_ranks
      rw [hl2]
      exact hlenR
    · show ∀ rs ∈ ranks2, WFRank cfg rs
      intro rs2 hmem
      obtain ⟨i, h1, hgi⟩ := List.mem_iff_getElem.mp hmem
      have hi : i < sys.ranks.length := by rw [← hl1]; exact h1
      have hks : i < sends.length := by rw [← hlenS]; exact hi
      have hval := hpt1 i hi
      rw [List.getD_eq_getElem ranks2 ⟨[], []⟩ h1,
        List.getD_eq_getElem sends ([], [], false) hks, hgi] at hval
      obtain ⟨_, hF, _⟩ := rank_send_round_effect cfg fuel _ _ _ _
        (hwfk i hi).2.1 (hwfk i hi).2.2 hcap (heff i hi hks)
      obtain ⟨hw1, hw2⟩ := wfregs_transfer cfg (hwfk i hi).2.1 (hwfk i hi).2.2 hF
      rw [hval]
      refine ⟨?_, hw1, hw2⟩
      exact hF.length_eq.symm.trans (hwfk i hi).1
    · show ∀ r : Nat, sent_to r ranks2 = sent_to r ranks0
      intro r
      rw [sent_to_congr r hFr2]
      exact hsent r
    · show ∀ r : Nat, r < cfg.num_ranks →
        delivered_at (ranks2.getD r ⟨[], []⟩) = consumed_to r ranks2
      intro r hr
      have hi : r < sys.ranks.length := by rw [hlenR]; exact hr
      rw [hpt1 r hi]
      have hda : delivered_at
          { regs := (sends.getD r ([], [], false)).1,
            delivered := (sys.ranks.getD r ⟨[], []⟩).delivered
              ++ (deliver_round cfg
                  (all_to_all cfg (sends.map (fun x => x.2.1)) r)).1 }
          = delivered_at (sys.ranks.getD r ⟨[], []⟩)
            + ↑(((deliver_round cfg
                (all_to_all cfg (sends.map (fun x => x.2.1)) r)).1).map
              (fun e : Delivery => e.2.2)) := by
        show (↑(((sys.ranks.getD r ⟨[], []⟩).delivered
            ++ (deliver_round cfg
                (all_to_all cfg (sends.map (fun x => x.2.1)) r)).1).map
            (fun e : Delivery => e.2.2)) : Multiset SpikeData) = _
        rw [List.map_append, ← Multiset.coe_add]
        rfl
      rw [hda, hdel r hr, consumed_to_global_step cfg fuel r hcap hchar hwfR hF2]
      congr 1
      rw [hpay r, realsOf_all_to_all]
      exact reals_sum_ranks cfg fuel r hcap hchar hwfR
    · show ∀ rs ∈ ranks2, EntryWF cfg rs
      intro rs2 hmem
      obtain ⟨i, h1, hgi⟩ := List.mem_iff_getElem.mp hmem
      have hi : i < sys.ranks.length := by rw [← hl1]; exact h1
      have hks : i < sends.length := by rw [← hlenS]; exact hi
      have hval := hpt1 i hi
      rw [List.getD_eq_getElem ranks2 ⟨[], []⟩ h1,
        List.getD_eq_getElem sends ([], [], false) hks, hgi] at hval
      intro e he
      rw [hval] at he
      replace he : e ∈ (sys.ranks.getD i ⟨[], []⟩).delivered
          ++ (deliver_round cfg
              (all_to_all cfg (sends.map (fun x => x.2.1)) i)).1 := he
      rcases List.mem_append.mp he with hold | hnew
      · have hmem0 : sys.ranks.getD i ⟨[], []⟩ ∈ sys.ranks := by
          rw [List.getD_eq_getElem sys.ranks ⟨[], []⟩ hi]
          exact List.getElem_mem hi
        exact hentry _ hmem0 e hold
      · obtain ⟨sd, hsdmem, h1e, h2e, h3e⟩ :=
          mem_deliver_round cfg _ e hfrom hnew
        refine ⟨by rw [h2e]; exact h1e, ?_⟩
        rw [h2e, h3e,
          prepared_timestamps_getD cfg.min_delay cfg.clock sd.lag
            (htid i sd hsdmem).2]
    · show ∀ k : Nat, k < cfg.num_ranks → exits.getD k false = true →
        Exhausted (ranks2.getD k ⟨[], []⟩)
      intro k hk hxk
      have hi : k < sys.ranks.length := by rw [hlenR]; exact hk
      have hks : k < sends.length := by rw [← hlenS]; exact hi
      rw [hpt2 k hi, Bool.and_eq_true] at hxk
      obtain ⟨hme, _⟩ := hxk
      rw [List.getD_eq_getElem sends ([], [], false) hks] at hme
      obtain ⟨_, hF, _, _, _, hmecl⟩ := rank_send_round_effect cfg fuel _ _ _ _
        (hwfk k hi).2.1 (hwfk k hi).2.2 hcap (heff k hi hks)
      have hxh := (hmecl hme).1
      have hval := hpt1 k hi
      rw [List.getD_eq_getElem sends ([], [], false) hks] at hval
      rw [hval]
      intro regO hregO
      obtain ⟨reg, hreg, hrel⟩ := forall₂_mem_right hF regO hregO
      obtain ⟨hstr, _, _, _, hmono, _⟩ := hrel
      have hlen0 := hxh reg hreg
      rw [hstr]
      omega


/-- At reset entry points nothing has been committed. -/
lemma consumed_to_initial (r : Nat) (ranks : List RankState)
    (h : ∀ rs ∈ ranks, ∀ reg ∈ rs.regs, reg.pos = reset_entry_point) :
    consumed_to r ranks = 0 := by
  rw [consumed_to]
  have hnil : ranks.flatMap (fun rs => rs.regs.flatMap
      (fun reg => ((reg.stream.take reg.pos.saved).filter
          (fun rec => rec.target == r)).map SpikeRecord.sd)) = [] := by
    rw [List.flatMap_eq_nil_iff]
    intro rs hrs
    rw [List.flatMap_eq_nil_iff]
    intro reg hreg
    rw [h rs hrs reg hreg]
    rfl
  rw [hnil]
  rfl

lemma flatMap_take_exhausted (r : Nat) :
    ∀ regs : List ThreadReg,
      (∀ reg ∈ regs, reg.stream.length ≤ reg.pos.saved) →
      regs.flatMap (fun reg =>
          ((reg.stream.take reg.pos.saved).filter
            (fun rec => rec.target == r)).map SpikeRecord.sd)
        = regs.flatMap (fun reg =>
            (reg.stream.filter (fun rec => rec.target == r)).map SpikeRecord.sd) := by
  intro regs
  induction regs with
  | nil => intro _; rfl
  | cons a l ih =>
    intro h
    rw [List.flatMap_cons, List.flatMap_cons,
      List.take_of_length_le (h a (List.mem_cons_self a l)),
      ih (fun x hx => h x (List.mem_cons_of_mem a hx))]

/-- Once every rank has consumed its whole register, the committed multiset is
the full sent multiset. -/
lemma consumed_to_eq_sent_to (r : Nat) :
    ∀ ranks : List RankState, (∀ rs ∈ ranks, Exhausted rs) →
      consumed_to r ranks = sent_to r ranks := by
  intro ranks
  induction ranks with
  | nil => intro _; rfl
  | cons rs l ih =>
    intro h
    rw [consumed_to_cons, sent_to_cons,
      flatMap_take_exhausted r rs.regs (h rs (List.mem_cons_self rs l)),
      ih (fun x hx => h x (List.mem_cons_of_mem rs hx))]

/-- The round loop preserves the invariant, and a terminating run ends with
every rank outside the loop. -/
lemma run_protocol_inv (cfg : ProtoCfg) (fuel : Nat) (ranks0 : List RankState)
    (hfrom : cfg.from_step = 0)
    (hcap : 1 ≤ num_spike_data_per_rank cfg.buf_size cfg.num_ranks) :
    ∀ (n : Nat) (sys sysF : SysState), ProtoInv cfg ranks0 sys →
      run_protocol cfg fuel n sys = some sysF →
      ProtoInv cfg ranks0 sysF ∧ sysF.exited.all id = true := by
  intro n
  induction n with
  | zero =>
    intro sys sysF hinv hrun
    rw [run_protocol] at hrun
    by_cases hall : sys.exited.all id = true
    · rw [if_pos hall] at hrun
      injection hrun with h'
      rw [← h']
      exact ⟨hinv, hall⟩
    · rw [if_neg hall] at hrun
      exact absurd hrun (by simp)
  | succ n ih =>
    intro sys sysF hinv hrun
    rw [run_protocol] at hrun
    by_cases hall : sys.exited.all id = true
    · rw [if_pos hall] at hrun
      injection hrun with h'
      rw [← h']
      exact ⟨hinv, hall⟩
    · rw [if_neg hall] at hrun
      by_cases hany : sys.exited.any id = true
      · rw [if_pos hany] at hrun
        exact absurd hrun (by simp)
      · rw [if_neg hany] at hrun
        cases hG : global_round cfg fuel sys.ranks with
        | none => rw [hG] at hrun; exact absurd hrun (by simp)
        | some pr =>
          obtain ⟨ranks2, exits⟩ := pr
          rw [hG] at hrun
          replace hrun : run_protocol cfg fuel n ⟨ranks2, exits⟩ = some sysF :=
            hrun
          exact ih ⟨ranks2, exits⟩ sysF
            (global_round_effect cfg fuel ranks0 hfrom hcap sys ranks2 exits
              hinv hG) hrun

/-- **C1.** Exactly-once delivery of the round-based spike exchange: start
`gather_spike_data` on any well-formed initial system (registers at the reset
entry point, nothing delivered, every rank inside the round loop), at the start
of a slice (`from_step = 0`) and with at least one slot per destination rank.
If the round loop terminates (the collective exchanges all match and every rank
breaks out), then every rank has handed to the routing layer exactly the
multiset of records the whole system held for it — each record exactly once,
no record lost, none duplicated, none delivered to a wrong rank — and every
delivered event carries the thread id of its record and the timestamp
`clock + (lag + 1)`, i.e. the record's lag is preserved by the
`prepared_timestamps` stamping. -/
theorem gather_spike_data_exactly_once (cfg : ProtoCfg) (fuel n : Nat)
    (sys0 sysF : SysState)
    (hwf : WFSys cfg sys0) (hinit : InitialSys sys0)
    (hfrom : cfg.from_step = 0)
    (hcap : 1 ≤ num_spike_data_per_rank cfg.buf_size cfg.num_ranks)
    (hrun : run_protocol cfg fuel n sys0 = some sysF) :
    ∀ r : Nat, r < cfg.num_ranks →
      delivered_at (sysF.ranks.getD r ⟨[], []⟩) = sent_to r sys0.ranks
        ∧ ∀ e ∈ (sysF.ranks.getD r ⟨[], []⟩).delivered,
            e.1 = e.2.2.tid ∧ e.2.1 = cfg.clock + (e.2.2.lag + 1) := by
  obtain ⟨hinit1, hinit2⟩ := hinit
  have hinv0 : ProtoInv cfg sys0.ranks sys0 := by
    refine ⟨hwf, fun r => rfl, ?_, ?_, ?_⟩
    · intro r hr
      have hi : r < sys0.ranks.length := by rw [hwf.1]; exact hr
      have hmem : sys0.ranks.getD r ⟨[], []⟩ ∈ sys0.ranks := by
        rw [List.getD_eq_getElem sys0.ranks ⟨[], []⟩ hi]
        exact List.getElem_mem hi
      have hdel0 : (sys0.ranks.getD r ⟨[], []⟩).delivered = [] :=
        (hinit1 _ hmem).2
      rw [consumed_to_initial r sys0.ranks (fun rs hrs => (hinit1 rs hrs).1),
        delivered_at, hdel0]
      rfl
    · intro rs hrs e he
      rw [(hinit1 rs hrs).2] at he
      exact absurd he (List.not_mem_nil e)
    · intro k hk hx
      have hkE : k < sys0.exited.length := by rw [hwf.2.1]; exact hk
      have hfalse : sys0.exited.getD k false = false := by
        rw [List.getD_eq_getElem sys0.exited false hkE]
        exact hinit2 _ (List.getElem_mem hkE)
      rw [hfalse] at hx
      exact absurd hx (by simp)
  obtain ⟨hinvF, hallF⟩ :=
    run_protocol_inv cfg fuel sys0.ranks hfrom hcap n sys0 sysF hinv0 hrun
  obtain ⟨⟨hlenR, hlenE, _⟩, hsentF, hdelF, hentryF, hexitF⟩ := hinvF
  intro r hr
  have hi : r < sysF.ranks.length := by rw [hlenR]; exact hr
  have hx : ∀ rs ∈ sysF.ranks, Exhausted rs := by
    intro rs hrs
    obtain ⟨k, hk1, hgk⟩ := List.mem_iff_getElem.mp hrs
    have hkN : k < cfg.num_ranks := by rw [← hlenR]; exact hk1
    have hkE : k < sysF.exited.length := by rw [hlenE]; exact hkN
    have hxk : sysF.exited.getD k false = true := by
      rw [List.getD_eq_getElem sysF.exited false hkE]
      exact List.all_eq_true.mp hallF _ (List.getElem_mem hkE)
    have hex := hexitF k hkN hxk
    rw [List.getD_eq_getElem sysF.ranks ⟨[], []⟩ hk1, hgk] at hex
    exact hex
  refine ⟨?_, ?_⟩
  · rw [hdelF r hr, consumed_to_eq_sent_to r sysF.ranks hx]
    exact hsentF r
  · have hmemF : sysF.ranks.getD r ⟨[], []⟩ ∈ sysF.ranks := by
      rw [List.getD_eq_getElem sysF.ranks ⟨[], []⟩ hi]
      exact List.getElem_mem hi
    exact hentryF _ hmemF


theorem gather_spike_data_exactly_once_witness :
    WFSys ⟨1, 1, 2, 1, 0, 0⟩
        ⟨[⟨[⟨[⟨0, ⟨0, 7, 8, 0⟩⟩], ⟨0, 0⟩, 0, 1⟩], []⟩], [false]⟩
      ∧ InitialSys ⟨[⟨[⟨[⟨0, ⟨0, 7, 8, 0⟩⟩], ⟨0, 0⟩, 0, 1⟩], []⟩], [false]⟩
      ∧ run_protocol ⟨1, 1, 2, 1, 0, 0⟩ 10 5
          ⟨[⟨[⟨[⟨0, ⟨0, 7, 8, 0⟩⟩], ⟨0, 0⟩, 0, 1⟩], []⟩], [false]⟩
          = some ⟨[⟨[⟨[⟨0, ⟨0, 7, 8, 0⟩⟩], ⟨1, 1⟩, 0, 1⟩],
              [(0, 1, ⟨0, 7, 8, 0⟩)]⟩], [true]⟩
      ∧ (delivered_at
            ((⟨[⟨[⟨[⟨0, ⟨0, 7, 8, 0⟩⟩], ⟨1, 1⟩, 0, 1⟩],
                [(0, 1, ⟨0, 7, 8, 0⟩)]⟩], [true]⟩ : SysState).ranks.getD 0 ⟨[], []⟩)
          = sent_to 0
              (⟨[⟨[⟨[⟨0, ⟨0, 7, 8, 0⟩⟩], ⟨0, 0⟩, 0, 1⟩],
                  []⟩], [false]⟩ : SysState).ranks
        ∧ ∀ e ∈ ((⟨[⟨[⟨[⟨0, ⟨0, 7, 8, 0⟩⟩], ⟨1, 1⟩, 0, 1⟩],
              [(0, 1, ⟨0, 7, 8, 0⟩)]⟩], [true]⟩ : SysState).ranks.getD 0
                ⟨[], []⟩).delivered,
            e.1 = e.2.2.tid ∧ e.2.1 = 0 + (e.2.2.lag + 1)) :=
  ⟨by decide, by decide, by decide,
    gather_spike_data_exactly_once ⟨1, 1, 2, 1, 0, 0⟩ 10 5
      ⟨[⟨[⟨[⟨0, ⟨0, 7, 8, 0⟩⟩], ⟨0, 0⟩, 0, 1⟩], []⟩], [false]⟩
      ⟨[⟨[⟨[⟨0, ⟨0, 7, 8, 0⟩⟩], ⟨1, 1⟩, 0, 1⟩], [(0, 1, ⟨0, 7, 8, 0⟩)]⟩], [true]⟩
      (by decide) (by decide) rfl (by decide) (by decide) 0 (by decide)⟩


end Nest5g
